import Mathlib

/-!
Verification of the FASTA reading/indexing core of bamtools
(`src/utils/bamtools_fasta.cpp`, class `Fasta::FastaPrivate`).

The C++ code is shallowly embedded as executable Lean functions.  A FILE
stream is modelled as its byte contents (`List Char`, the file is treated
as ASCII text with every byte below 128), a read position, and the EOF
indicator flag; reading functions are written in "suffix-passing" style:
they consume the remaining contents (`rem : List Char`) together with the
EOF flag and return the rest.  `fgets` is modelled as reading a whole line
(the 1024-byte buffer cap is elided; sequence reading is insensitive to it
because chunks are chomped and appended, and all header/index lines that
the claims touch are far shorter than the buffer).  `fseek(...,SEEK_SET)`
on a regular file succeeds exactly when the target offset is nonnegative
and clears the EOF flag; `ftell` is the current position.  C++ outcomes
are reported by `FRes`: `ok` models `return true` with the out-parameter
set, `err` models `return false` (tagged by the `cerr` site that produced
it), `abortUB` models an uncaught C++ exception or undefined behaviour
(e.g. `std::vector::at` out of range, integer division by zero), and
`hangUB` models a loop that never terminates (sequential access with a
negative record id increments `currentId` towards a negative target).
Loops are written with an explicit fuel argument so that every definition
is kernel-computable; each loop consumes at least one character of the
remaining input per iteration, so fuel `rem.length + 1` is always enough
(the lemmas below are proved under that hypothesis).
-/

namespace Fasta

/-- A character with `c >= 0` as a signed char, i.e. an ASCII byte. -/
def isAsciiChar (c : Char) : Bool := c.toNat < 128

/-- `isgraph` from `<cctype>`: printable and not a space (ASCII 33..126). -/
def isGraphChar (c : Char) : Bool := 33 ≤ c.toNat && c.toNat ≤ 126

/-- The whitespace set used by `GetNameFromHeader` (codes 32, 9, 10, 13). -/
def isNameWs (c : Char) : Bool :=
  c.toNat = 32 || c.toNat = 9 || c.toNat = 10 || c.toNat = 13

/-- The whitespace set skipped by `istream >> ...` (C locale `isspace`). -/
def isStreamWs (c : Char) : Bool :=
  c.toNat = 32 || (9 ≤ c.toNat && c.toNat ≤ 13)

/-- Line feed. -/
def lfChar : Char := Char.ofNat 10

/-- Carriage return. -/
def crChar : Char := Char.ofNat 13

/-- `getc` at end of file yields `EOF`; stored into a `char` it is `(char)-1`,
byte 255. -/
def eofChar : Char := Char.ofNat 255

/-- One `fgets` call: read characters up to and including the first newline.
Returns `(line, rest, hitEof)`; `hitEof` is true when the line was ended by
end-of-input rather than a newline (the stream's EOF flag becomes set). -/
def readLineFrom : List Char → List Char × List Char × Bool
  | [] => ([], [], true)
  | c :: cs =>
    if c = '\n' then ([c], cs, false)
    else
      let r := readLineFrom cs
      (c :: r.1, r.2.1, r.2.2)

/-- `Chomp`: remove any trailing run of LF/CR characters. -/
def chomp (s : List Char) : List Char :=
  (s.reverse.dropWhile (fun c => c = lfChar || c = crChar)).reverse

/-- The `fgetc` loop of `CreateIndex` that measures line geometry: count the
raw bytes (`.1`) and the `isgraph` bytes (`.2`) up to the first newline.
It stops at `'\n'`, at EOF, or at a byte that is negative as a signed
`char` (`c >= 0` fails for bytes above 127). -/
def geomLoop : List Char → Nat × Nat
  | [] => (0, 0)
  | c :: cs =>
    if 128 ≤ c.toNat || c = '\n' then (0, 0)
    else
      let r := geomLoop cs
      (r.1 + 1, if isGraphChar c then r.2 + 1 else r.2)

/-- Result of one internal read step (`GetNextHeader` / `GetNextSequence`):
the C++ `bool` return, the out-parameter text, and the stream state
(remaining input and EOF flag). -/
structure StepOut where
  ok : Bool
  text : List Char
  rem : List Char
  eof : Bool
deriving DecidableEq

/-- `GetNextHeader`: fail if the EOF flag is set; `fgets` a line (failing at
end of input, which sets the EOF flag); fail unless it starts with `'>'`.
On the non-`'>'` failure the line has still been consumed.  (`IsOpen` is
checked by the public entry points before this is reached.) -/
def gnhStep (rem : List Char) (eof : Bool) : StepOut :=
  if eof then ⟨false, [], rem, eof⟩
  else
    match rem with
    | [] => ⟨false, [], rem, true⟩
    | c :: _ =>
      let r := readLineFrom rem
      if c = '>' then ⟨true, r.1, r.2.1, r.2.2⟩ else ⟨false, [], r.2.1, r.2.2⟩

/-- The `while (sequence.size() < count)` loop of `GetNextSequence`: peek one
character (`fgetc` + `ungetc`); stop at `'>'` or EOF; otherwise `fgets` a
line, `Chomp` it and append.  `fuel` dominates the number of iterations;
`rem.length + 1` always suffices since each iteration consumes a line. -/
def seqLoopF (count : Nat) : Nat → List Char → List Char → Bool →
    List Char × List Char × Bool
  | 0, acc, rem, eof => (acc, rem, eof)
  | fuel + 1, acc, rem, eof =>
    if acc.length < count then
      match rem with
      | [] => (acc, [], true)
      | c :: _ =>
        if c = '>' then (acc, rem, eof)
        else
          let r := readLineFrom rem
          seqLoopF count fuel (acc ++ chomp r.1) r.2.1 r.2.2
    else (acc, rem, eof)

/-- `GetNextSequence(sequence, count)`: the out-string is cleared first; the
call fails when the EOF flag is already set, and otherwise runs the read
loop (whose inner `fgets` can no longer fail, since the peek guarantees a
pending character). -/
def seqStep (count : Nat) (rem : List Char) (eof : Bool) : StepOut :=
  if eof then ⟨false, [], rem, eof⟩
  else
    let r := seqLoopF count (rem.length + 1) [] rem eof
    ⟨true, r.1, r.2.1, r.2.2⟩

/-- `GetNextSequence(sequence)` with the defaulted `count = (size_t)-1`:
the size check `sequence.size() < count` can never fail, which
`rem.length + 1` (an unreachable bound) models exactly. -/
def seqStepAll (rem : List Char) (eof : Bool) : StepOut :=
  seqStep (rem.length + 1) rem eof

/-- `GetNameFromHeader`: drop the leading `'>'`, skip leading whitespace
(codes 32/9/10/13), take the run of non-whitespace characters; fail if the
run is empty. -/
def getNameFromHeader (header : List Char) : Option (List Char) :=
  let s := header.drop 1
  let t := s.dropWhile isNameWs
  let name := t.takeWhile (fun c => !isNameWs c)
  if name = [] then none else some name

/-- One iteration of the sequential-fallback scan: `GetNextHeader` followed
by `GetNextSequence`, both return values ignored (as in `GetBase` /
`GetSequence` without an index).  The out-string of a failed
`GetNextSequence` has been cleared, so the surviving sequence is exactly
`(seqStep ...).text` in every case. -/
def scanStep (rem : List Char) (eof : Bool) : StepOut :=
  let g := gnhStep rem eof
  seqStepAll g.rem g.eof

/-- The sequential fallback reads records `0..refId`: one `scanStep` before
the `while (currentId != refId)` loop and `refId` more inside it. -/
def scanToRecord : Nat → List Char → Bool → StepOut
  | 0, rem, eof => scanStep rem eof
  | n + 1, rem, eof =>
    let r := scanStep rem eof
    scanToRecord n r.rem r.eof

/-- `Fasta::FastaPrivate::FastaIndexData`.  `Length`, `LineLength` and
`ByteLength` are `int32_t` and `Offset` is `int64_t`; they are modelled as
unbounded `Int` (no claim involves values near the 32/64-bit bounds, and
the index parser can produce negative values). -/
structure FastaIndexData where
  Name : List Char
  Length : Int
  Offset : Int
  LineLength : Int
  ByteLength : Int
deriving DecidableEq

/-- Tags for the `return false` sites of the C++ code, named after the error
kinds of the specification where one applies. -/
inductive FErr where
  | notOpen        -- "file not open for reading" (IoError)
  | ioRead         -- "could not read from file" (IoError)
  | createEof      -- CreateIndex: feof right after the first header
  | formatHeader   -- "expected header ('>')" (FormatError)
  | formatName     -- "could not parse read name" (FormatError)
  | readSeq        -- "could not read in next sequence" (IoError)
  | indexWrite     -- WriteIndexData returned false
  | badRefId       -- "invalid refId specified" (OutOfRangeError)
  | badPosition    -- "invalid position specified" (OutOfRangeError)
  | badRange       -- "invalid start/stop positions specified" (OutOfRangeError)
  | seekFail       -- "could not seek in file" (IoError)
  | notIndexed     -- GetLength: "could not read from index file" (NotIndexedError)
  | notFound       -- sequential fallback: "could not get sequence" (NotFoundError)
deriving DecidableEq

/-- Outcome of a C++ call: `ok` = `return true` with the out-parameter,
`err` = `return false` at a tagged site, `abortUB` = uncaught exception or
undefined behaviour (the process does not return a result), `hangUB` = the
call never terminates. -/
inductive FRes (α : Type) where
  | ok : α → FRes α
  | err : FErr → FRes α
  | abortUB : FRes α
  | hangUB : FRes α
deriving DecidableEq

/-- A `FILE*`: contents, read position, EOF indicator. -/
structure CFile where
  data : List Char
  pos : Nat
  eof : Bool
deriving DecidableEq

/-- `getc` after a seek to `n`: the byte at offset `n`, or `(char)EOF` past
the end of the file. -/
def readByteAt (f : CFile) (n : Nat) : Char :=
  match f.data[n]? with
  | some c => c
  | none => eofChar

/-- `Fasta::FastaPrivate`'s data members (minus the raw index-file handle,
whose contents are passed directly to the index parser / serializer). -/
structure FastaSession where
  file : CFile
  isOpen : Bool
  hasIndex : Bool
  isIndexOpen : Bool
  index : List FastaIndexData
deriving DecidableEq

/-- `Open(filename, "")` on a data file with the given contents: the FASTA
stream is open at position 0, no index is attached. -/
def openNoIndex (data : List Char) : FastaSession :=
  { file := ⟨data, 0, false⟩
    isOpen := true
    hasIndex := false
    isIndexOpen := false
    index := [] }

/-! ### Index serialization (`WriteIndexData`) and parsing (`LoadIndexData`) -/

/-- Decimal digits of `n` as printed by `operator<<`, with explicit fuel
(any `fuel > n` yields the true digits). -/
def natCharsF : Nat → Nat → List Char
  | 0, _ => []
  | fuel + 1, n =>
    if n < 10 then [Char.ofNat (48 + n)]
    else natCharsF fuel (n / 10) ++ [Char.ofNat (48 + n % 10)]

/-- Decimal digits of a natural number. -/
def natChars (n : Nat) : List Char := natCharsF (n + 1) n

/-- `operator<<` on an integer: optional minus sign, then decimal digits. -/
def intChars (i : Int) : List Char :=
  if i < 0 then '-' :: natChars i.natAbs else natChars i.toNat

/-- One serialized index line, as written by `WriteIndexData`: the five
fields tab-separated, terminated by `std::endl`. -/
def writeIndexLine (d : FastaIndexData) : List Char :=
  d.Name ++ '\t' :: (intChars d.Length ++ '\t' :: (intChars d.Offset ++
    '\t' :: (intChars d.LineLength ++ '\t' :: (intChars d.ByteLength ++ ['\n']))))

/-- The bytes `WriteIndexData` writes for a whole table (one line per entry,
in order).  Inside `CreateIndex` the write is reported successful exactly
when an index stream is open for writing; the written bytes themselves are
this pure function of the table. -/
def writeIndexData (t : List FastaIndexData) : List Char :=
  (t.map writeIndexLine).flatten

/-- `istream >> std::string`: skip whitespace, read a maximal non-whitespace
token; fail (failbit) when no token remains. -/
def extractToken (s : List Char) : Option (List Char) × List Char :=
  let t := s.dropWhile isStreamWs
  let tok := t.takeWhile (fun c => !isStreamWs c)
  if tok = [] then (none, t) else (some tok, t.drop tok.length)

/-- Digit-string value, most significant digit first. -/
def parseNatList (ds : List Char) : Nat :=
  ds.foldl (fun a c => a * 10 + (c.toNat - 48)) 0

/-- An ASCII decimal digit (the only characters `istream >> int` accepts
in the numeral body). -/
def isDigitCh (c : Char) : Bool := 48 ≤ c.toNat && c.toNat ≤ 57

/-- `istream >> intField`: skip whitespace, optional sign, maximal digit
run; fail (failbit) when there is no digit, in which case C++11 stores 0.
(32-bit overflow clamping is not modelled; every value the claims touch is
small.) -/
def extractInt (s : List Char) : Option Int × List Char :=
  let t := s.dropWhile isStreamWs
  match t with
  | [] => (none, t)
  | c :: u =>
    if c = '-' then
      let ds := u.takeWhile isDigitCh
      if ds = [] then (none, t)
      else (some (-(parseNatList ds : Int)), u.drop ds.length)
    else if c = '+' then
      let ds := u.takeWhile isDigitCh
      if ds = [] then (none, t)
      else (some ((parseNatList ds : Int)), u.drop ds.length)
    else
      let ds := t.takeWhile isDigitCh
      if ds = [] then (none, t)
      else (some ((parseNatList ds : Int)), t.drop ds.length)

/-- Parse one index line with the five `>>` extractions of `LoadIndexData`.
`failIn` is the stringstream's failbit, which `indexBuffer.str("")` does
not clear, so a failure poisons all later extractions (and later lines).
No field is validated; a failed numeric extraction stores 0 and a failed
name extraction leaves the freshly default-constructed empty string. -/
def parseIndexLine (failIn : Bool) (line : List Char) : FastaIndexData × Bool :=
  if failIn then (⟨[], 0, 0, 0, 0⟩, true)
  else
    match extractToken line with
    | (none, _) => (⟨[], 0, 0, 0, 0⟩, true)
    | (some name, r1) =>
      match extractInt r1 with
      | (none, _) => (⟨name, 0, 0, 0, 0⟩, true)
      | (some len, r2) =>
        match extractInt r2 with
        | (none, _) => (⟨name, len, 0, 0, 0⟩, true)
        | (some off, r3) =>
          match extractInt r3 with
          | (none, _) => (⟨name, len, off, 0, 0⟩, true)
          | (some ll, r4) =>
            match extractInt r4 with
            | (none, _) => (⟨name, len, off, ll, 0⟩, true)
            | (some bl, _) => (⟨name, len, off, ll, bl⟩, false)

/-- The `while (true)` loop of `LoadIndexData`: peek one character; stop at
a newline or EOF; otherwise `fgets` the line (which cannot fail, since the
peek guarantees a pending character — the error branch is unreachable) and
parse it.  Fuel `rem.length + 1` always suffices. -/
def loadIndexLoopF : Nat → Bool → List Char → List FastaIndexData →
    List FastaIndexData
  | 0, _, _, acc => acc
  | fuel + 1, failbit, rem, acc =>
    match rem with
    | [] => acc
    | c :: _ =>
      if c = '\n' then acc
      else
        let r := readLineFrom rem
        let p := parseIndexLine failbit r.1
        loadIndexLoopF fuel p.2 r.2.1 (acc ++ [p.1])

/-- `LoadIndexData` on an open index stream with the given contents: always
returns `true` on these paths, filling `Index` with the parsed entries. -/
def loadIndexData (content : List Char) : List FastaIndexData :=
  loadIndexLoopF (content.length + 1) false content []

/-- `Open(filename, indexFilename)` with both files present: the index is
parsed by `LoadIndexData` (which succeeds and sets `HasIndex`). -/
def openWithIndex (data idxContent : List Char) : FastaSession :=
  { file := ⟨data, 0, false⟩
    isOpen := true
    hasIndex := true
    isIndexOpen := true
    index := loadIndexData idxContent }

/-! ### `CreateIndex` -/

/-- The entry-building loop of `CreateIndex`: repeat `GetNextHeader`; store
`ftell` (position after the header, i.e. `total - rem.length`), parse the
name, `GetNextSequence`, and append an entry stamped with the globally
measured `lineLength`/`byteLength`.  The loop ends normally when
`GetNextHeader` fails; name/sequence failures abort with the table built
so far (the C++ object keeps the partial `Index`).  Fuel
`rem.length + 1` always suffices (each iteration consumes a header line). -/
def ciLoopF (lineLength byteLength total : Nat) :
    Nat → List Char → Bool → List FastaIndexData →
    Option FErr × List FastaIndexData
  | 0, _, _, acc => (none, acc)
  | fuel + 1, rem, eof, acc =>
    let g := gnhStep rem eof
    if !g.ok then (none, acc)
    else
      let offset : Nat := total - g.rem.length
      match getNameFromHeader g.text with
      | none => (some .formatName, acc)
      | some name =>
        let s := seqStepAll g.rem g.eof
        if !s.ok then (some .readSeq, acc)
        else
          ciLoopF lineLength byteLength total fuel s.rem s.eof
            (acc ++ [⟨name, (s.text.length : Int), (offset : Int),
                     (lineLength : Int), (byteLength : Int)⟩])

/-- `CreateIndex(indexFilename)`.  `indexPathEmpty` is whether the argument
string is empty.  Steps: require an open file; rewind (which cannot fail
on an open regular file); clear `Index`; measure line geometry from the
first record's first sequence line (failing on an unreadable/EOF-truncated
or non-`'>'` first line); rewind; build all entries; then open the index
file for writing only when a filename was given, and call
`WriteIndexData`.  When no filename was given no index stream is open for
writing, so `WriteIndexData` fails — either immediately
(`!IsIndexOpen`) or, when a read-mode index stream is attached, because
`fputs` on it fails for the (necessarily nonempty) table — and
`CreateIndex` returns `false` with `HasIndex` still unset, keeping the
freshly built in-memory table.  The final stream position is not tracked
on the session: every public operation re-seeks or rewinds before
reading. -/
def createIndex (s : FastaSession) (indexPathEmpty : Bool) :
    FRes Unit × FastaSession :=
  if !s.isOpen then (.err .notOpen, s)
  else
    let data := s.file.data
    match data with
    | [] => (.err .ioRead, { s with index := [] })
    | c :: _ =>
      let r := readLineFrom data
      if r.2.2 then (.err .createEof, { s with index := [] })
      else if c ≠ '>' then (.err .formatHeader, { s with index := [] })
      else
        let g := geomLoop r.2.1
        let byteLength := g.1 + 1
        let lineLength := g.2
        match ciLoopF lineLength byteLength data.length (data.length + 1)
            data false [] with
        | (some e, tbl) => (.err e, { s with index := tbl })
        | (none, tbl) =>
          if indexPathEmpty then (.err .indexWrite, { s with index := tbl })
          else
            (.ok (),
              { s with index := tbl, hasIndex := true, isIndexOpen := false })

/-! ### The public accessors -/

/-- `GetLength(refId, length)`: requires an open file; fails when there is
no index at all (`!HasIndex && Index.empty()`); then reads
`Index.at(refId).Length` with **no range check** — `std::vector::at`
throws `std::out_of_range` for any `refId` outside the table (a negative
`int` wraps to a huge `size_type`). -/
def getLength (s : FastaSession) (refId : Int) : FRes Int :=
  if !s.isOpen then .err .notOpen
  else if !s.hasIndex && s.index.isEmpty then .err .notIndexed
  else if refId < 0 then .abortUB
  else
    match s.index[refId.toNat]? with
    | some d => .ok d.Length
    | none => .abortUB

/-- `GetBase(refId, position, base)`.  Indexed path (`HasIndex` and a
nonempty table): validate `0 ≤ refId < size` and
`0 ≤ position ≤ entry.Length`; compute
`lines = position / LineLength`, `lineOffset = position % LineLength`
(C++ truncating division — undefined behaviour when `LineLength` is 0),
seek to `Offset + lines * ByteLength + lineOffset` (failing for a negative
target) and read one byte.  Sequential path: rewind, scan records
`0..refId` (never terminating for a negative `refId`), then return
`sequence.at(position)` when `sequence.length() >= (size_t)position` —
so `position == length` passes the test and `at` throws. -/
def getBase (s : FastaSession) (refId position : Int) : FRes Char :=
  if !s.isOpen then .err .notOpen
  else if s.hasIndex && !s.index.isEmpty then
    if refId < 0 || (s.index.length : Int) ≤ refId then .err .badRefId
    else
      match s.index[refId.toNat]? with
      | none => .abortUB
      | some rd =>
        if position < 0 || rd.Length < position then .err .badPosition
        else if rd.LineLength = 0 then .abortUB
        else
          let lines := position.tdiv rd.LineLength
          let lineOffset := position.tmod rd.LineLength
          let seekTo := rd.Offset + lines * rd.ByteLength + lineOffset
          if seekTo < 0 then .err .seekFail
          else .ok (readByteAt s.file seekTo.toNat)
  else
    if refId < 0 then .hangUB
    else
      let r := scanToRecord refId.toNat s.file.data false
      if position < 0 then .err .notFound
      else if position.toNat ≤ r.text.length then
        match r.text[position.toNat]? with
        | some c => .ok c
        | none => .abortUB
      else .err .notFound

/-- `GetSequence(refId, start, stop, sequence)`.  Indexed path: validate
`refId` and `0 ≤ start ≤ stop ≤ entry.Length`; seek to `entry.Offset`;
read de-wrapped characters until `stop + 1` are accumulated or a record
start / EOF is hit; return `fullSequence.substr(start, stop - start + 1)`
(`substr` throws when `start` exceeds the accumulated length).
Sequential path: scan to the record, then succeed with
`fullSequence.substr(start, stop - start + 1)` whenever
`fullSequence.length() >= (size_t)stop` — `stop == length` passes and
yields a truncated substring, and a negative `start` (or `start` beyond
the accumulated length) makes `substr` throw. -/
def getSequence (s : FastaSession) (refId start stop : Int) :
    FRes (List Char) :=
  if !s.isOpen then .err .notOpen
  else if s.hasIndex && !s.index.isEmpty then
    if refId < 0 || (s.index.length : Int) ≤ refId then .err .badRefId
    else
      match s.index[refId.toNat]? with
      | none => .abortUB
      | some rd =>
        if start < 0 || stop < start || rd.Length < stop then .err .badRange
        else if rd.Offset < 0 then .err .seekFail
        else
          let sub := s.file.data.drop rd.Offset.toNat
          let q := seqStep (stop + 1).toNat sub false
          if !q.ok then .err .readSeq
          else if q.text.length < start.toNat then .abortUB
          else .ok ((q.text.drop start.toNat).take ((stop - start) + 1).toNat)
  else
    if refId < 0 then .hangUB
    else
      let r := scanToRecord refId.toNat s.file.data false
      if stop < 0 then .err .notFound
      else if stop.toNat ≤ r.text.length then
        if start < 0 then .abortUB
        else if r.text.length < start.toNat then .abortUB
        else
          let cnt : Int := (stop - start) + 1
          .ok ((r.text.drop start.toNat).take
            (if cnt < 0 then r.text.length else cnt.toNat))
      else .err .notFound

/-! ### Well-formed data files

The address-translation formula of the indexed path is exact only for data
files whose sequence body is wrapped uniformly (spec §4.2).  The input
domain is therefore modelled abstractly: a list of records (name +
de-wrapped sequence), encoded with a fixed wrap width `w` and a fixed line
terminator (`"\n"` or `"\r\n"`). -/

/-- One FASTA record: name and de-wrapped sequence. -/
structure FastaRecord where
  name : List Char
  seq : List Char
deriving DecidableEq

instance : Inhabited FastaRecord := ⟨⟨[], []⟩⟩

/-- Wrap a sequence into lines of `w` visible characters, each followed by
the terminator, with explicit fuel (any `fuel ≥ s.length` is enough when
`0 < w`). -/
def wrapGo (w : Nat) (term : List Char) : Nat → List Char → List Char
  | 0, _ => []
  | _, [] => []
  | fuel + 1, c :: cs =>
    (c :: cs).take w ++ term ++ wrapGo w term fuel ((c :: cs).drop w)

/-- The wrapped body of a sequence. -/
def wrapBody (w : Nat) (term : List Char) (s : List Char) : List Char :=
  wrapGo w term s.length s

/-- One encoded record: `'>'`, the name, the terminator, the wrapped body. -/
def encodeRecord (w : Nat) (term : List Char) (r : FastaRecord) : List Char :=
  '>' :: (r.name ++ term ++ wrapBody w term r.seq)

/-- The encoded data file. -/
def encodeFasta (w : Nat) (term : List Char) : List FastaRecord → List Char
  | [] => []
  | r :: rest => encodeRecord w term r ++ encodeFasta w term rest

/-- A sequence character: printable (`isgraph`) and not the record marker. -/
def isSeqChar (c : Char) : Bool := isGraphChar c && c ≠ '>'

/-- Well-formedness of a record list for wrap width `w` and terminator
`term`: positive width, Unix or DOS terminator, at least one record, every
name a nonempty run of printable characters, every sequence made of
sequence characters, and the first record at least one full line long (so
that the geometry measured by `CreateIndex` from the first sequence line
is `(w, w + |term|)`). -/
def WellFormed (w : Nat) (term : List Char) (rs : List FastaRecord) : Prop :=
  0 < w ∧ (term = ['\n'] ∨ term = ['\r', '\n']) ∧ rs ≠ [] ∧
    (∀ r ∈ rs, r.name ≠ [] ∧ ∀ c ∈ r.name, isGraphChar c = true) ∧
    (∀ r ∈ rs, ∀ c ∈ r.seq, isSeqChar c = true) ∧
    w ≤ (rs.headI).seq.length

instance (w : Nat) (term : List Char) (rs : List FastaRecord) :
    Decidable (WellFormed w term rs) := by
  unfold WellFormed; infer_instance

/-- The index table `CreateIndex` builds for an encoded well-formed file:
one entry per record in file order; `Offset` is the byte position of the
record body (after `'>'`, the name and the terminator); geometry is the
global `(w, w + |term|)`. -/
def expectedIndex (w : Nat) (term : List Char) :
    Nat → List FastaRecord → List FastaIndexData
  | _, [] => []
  | base, r :: rest =>
    ⟨r.name, (r.seq.length : Int), ((base + (1 + r.name.length + term.length) : Nat) : Int),
      (w : Int), ((w + term.length : Nat) : Int)⟩ ::
      expectedIndex w term (base + (encodeRecord w term r).length) rest

/-! ## Lemmas: character classes -/

theorem isGraphChar_not_nameWs {c : Char} (h : isGraphChar c = true) :
    isNameWs c = false := by
  simp only [isGraphChar, Bool.and_eq_true, decide_eq_true_eq] at h
  simp only [isNameWs, Bool.or_eq_false_iff, decide_eq_false_iff_not]
  omega

theorem isGraphChar_not_streamWs {c : Char} (h : isGraphChar c = true) :
    isStreamWs c = false := by
  simp only [isGraphChar, Bool.and_eq_true, decide_eq_true_eq] at h
  simp only [isStreamWs, Bool.or_eq_false_iff, Bool.and_eq_false_iff,
    decide_eq_false_iff_not]
  omega

theorem isGraphChar_ne_lf {c : Char} (h : isGraphChar c = true) : c ≠ '\n' := by
  simp only [isGraphChar, Bool.and_eq_true, decide_eq_true_eq] at h
  intro hc; subst hc; simp at h

theorem isGraphChar_ne_cr {c : Char} (h : isGraphChar c = true) : c ≠ crChar := by
  simp only [isGraphChar, Bool.and_eq_true, decide_eq_true_eq] at h
  intro hc; subst hc; simp [crChar] at h

theorem isGraphChar_lt_128 {c : Char} (h : isGraphChar c = true) :
    c.toNat < 128 := by
  simp only [isGraphChar, Bool.and_eq_true, decide_eq_true_eq] at h
  omega

theorem isSeqChar_graph {c : Char} (h : isSeqChar c = true) :
    isGraphChar c = true := by
  simp only [isSeqChar, Bool.and_eq_true] at h
  exact h.1

theorem isSeqChar_ne_gt {c : Char} (h : isSeqChar c = true) : c ≠ '>' := by
  simp only [isSeqChar, Bool.and_eq_true, decide_eq_true_eq] at h
  exact h.2

/-! ## Lemmas: `readLineFrom` -/

theorem readLineFrom_append (l r : List Char) (hl : '\n' ∉ l) :
    readLineFrom (l ++ '\n' :: r) = (l ++ ['\n'], r, false) := by
  induction l with
  | nil => simp [readLineFrom]
  | cons c cs ih =>
    have hc : c ≠ '\n' := fun h => hl (h ▸ List.mem_cons_self c cs)
    have hcs : '\n' ∉ cs := fun h => hl (List.mem_cons_of_mem c h)
    simp only [List.cons_append, readLineFrom, if_neg hc, List.append_eq,
      ih hcs, List.nil_append]

theorem readLineFrom_parts (l : List Char) :
    (readLineFrom l).1 ++ (readLineFrom l).2.1 = l := by
  induction l with
  | nil => simp [readLineFrom]
  | cons c cs ih =>
    by_cases hc : c = '\n'
    · subst hc; simp [readLineFrom]
    · simp only [readLineFrom, if_neg hc, List.cons_append, ih]

theorem readLineFrom_line_ne_nil (l : List Char) (h : l ≠ []) :
    (readLineFrom l).1 ≠ [] := by
  cases l with
  | nil => exact absurd rfl h
  | cons c cs =>
    by_cases hc : c = '\n'
    · subst hc; simp [readLineFrom]
    · simp [readLineFrom, if_neg hc]

theorem readLineFrom_rest_lt (l : List Char) (h : l ≠ []) :
    (readLineFrom l).2.1.length < l.length := by
  have hp := readLineFrom_parts l
  have hn := readLineFrom_line_ne_nil l h
  have : (readLineFrom l).1.length + (readLineFrom l).2.1.length = l.length := by
    rw [← List.length_append, hp]
  have : 0 < (readLineFrom l).1.length := List.length_pos.mpr hn
  omega

/-! ## Lemmas: `takeWhile` / `dropWhile` helpers -/

theorem dropWhile_all_append (q : Char → Bool) (a b : List Char)
    (ha : ∀ c ∈ a, q c = true) :
    (a ++ b).dropWhile q = b.dropWhile q := by
  induction a with
  | nil => rfl
  | cons x xs ih =>
    simp only [List.cons_append, List.dropWhile_cons,
      ha x (List.mem_cons_self x xs), if_true]
    exact ih (fun c hc => ha c (List.mem_cons_of_mem x hc))

theorem dropWhile_head_false (q : Char → Bool) (l : List Char)
    (h : ∀ x, l.head? = some x → q x = false) :
    l.dropWhile q = l := by
  cases l with
  | nil => rfl
  | cons x xs => simp [List.dropWhile_cons, h x rfl]

theorem takeWhile_middle (q : Char → Bool) (a : List Char) (b : Char)
    (r : List Char) (ha : ∀ c ∈ a, q c = true) (hb : q b = false) :
    (a ++ b :: r).takeWhile q = a := by
  induction a with
  | nil => simp [List.takeWhile_cons, hb]
  | cons x xs ih =>
    simp only [List.cons_append, List.takeWhile_cons,
      ha x (List.mem_cons_self x xs), if_true, List.cons.injEq, true_and]
    exact ih (fun c hc => ha c (List.mem_cons_of_mem x hc))

theorem dropWhile_middle (q : Char → Bool) (a : List Char) (b : Char)
    (r : List Char) (ha : ∀ c ∈ a, q c = true) (hb : q b = false) :
    (a ++ b :: r).dropWhile q = b :: r := by
  rw [dropWhile_all_append q a (b :: r) ha]
  simp [List.dropWhile_cons, hb]

/-! ## Lemmas: `chomp` -/

theorem chomp_append_term (x t : List Char)
    (ht : ∀ c ∈ t, c = lfChar ∨ c = crChar)
    (hx : ∀ c ∈ x, isGraphChar c = true) :
    chomp (x ++ t) = x := by
  unfold chomp
  rw [List.reverse_append,
    dropWhile_all_append _ t.reverse x.reverse
      (by
        intro c hc
        rcases ht c (List.mem_reverse.mp hc) with h | h <;>
          simp [h])]
  rw [dropWhile_head_false _ x.reverse
      (by
        intro y hy
        have hmem : y ∈ x.reverse := List.mem_of_mem_head? (hy ▸ rfl)
        have hg := hx y (List.mem_reverse.mp hmem)
        have h1 := isGraphChar_ne_lf hg
        have h2 := isGraphChar_ne_cr hg
        have h1' : y ≠ lfChar := by
          simpa [lfChar] using h1
        simp [h1', h2]),
    List.reverse_reverse]

/-! ## Lemmas: `wrapBody` -/

theorem wrapGo_irrel (w : Nat) (term : List Char) (hw : 0 < w) :
    ∀ f1 f2 (s : List Char), s.length ≤ f1 → s.length ≤ f2 →
      wrapGo w term f1 s = wrapGo w term f2 s := by
  intro f1
  induction f1 with
  | zero =>
    intro f2 s h1 _
    have : s = [] := List.eq_nil_of_length_eq_zero (Nat.le_zero.mp h1)
    subst this
    cases f2 <;> rfl
  | succ f ih =>
    intro f2 s h1 h2
    cases s with
    | nil => cases f2 <;> rfl
    | cons c cs =>
      cases f2 with
      | zero => simp at h2
      | succ f2' =>
        simp only [wrapGo]
        rw [ih f2' ((c :: cs).drop w)
          (by
            simp only [List.length_drop, List.length_cons] at h1 h2 ⊢
            omega)
          (by
            simp only [List.length_drop, List.length_cons] at h1 h2 ⊢
            omega)]

theorem wrapBody_cons (w : Nat) (term : List Char) (hw : 0 < w)
    (s : List Char) (hs : s ≠ []) :
    wrapBody w term s = s.take w ++ term ++ wrapBody w term (s.drop w) := by
  obtain ⟨c, cs, rfl⟩ := List.exists_cons_of_ne_nil hs
  simp only [wrapBody, List.length_cons, wrapGo]
  rw [wrapGo_irrel w term hw cs.length ((c :: cs).drop w).length
    ((c :: cs).drop w)
    (by
      simp only [List.length_drop, List.length_cons]
      omega)
    le_rfl]

theorem le_length_wrapBody (w : Nat) (term : List Char) (hw : 0 < w)
    (s : List Char) : s.length ≤ (wrapBody w term s).length := by
  cases hs : s with
  | nil => simp [wrapBody, wrapGo]
  | cons c cs =>
    rw [wrapBody_cons w term hw (c :: cs) (by simp)]
    have hrec := le_length_wrapBody w term hw ((c :: cs).drop w)
    simp only [List.length_append, List.length_take, List.length_drop] at *
    omega
termination_by s.length
decreasing_by
  simp only [hs, List.length_drop, List.length_cons]
  omega

theorem wrapBody_eq_nil_iff (w : Nat) (term : List Char) (hw : 0 < w)
    (hterm : term ≠ []) (s : List Char) :
    wrapBody w term s = [] ↔ s = [] := by
  constructor
  · intro h
    by_contra hs
    rw [wrapBody_cons w term hw s hs] at h
    rcases List.append_eq_nil.mp h with ⟨h1, _⟩
    rcases List.append_eq_nil.mp h1 with ⟨_, h3⟩
    exact hterm h3
  · intro h; subst h; rfl

/-! ## Lemmas: `seqLoopF` -/

theorem seqLoopF_ge (count f : Nat) (acc rem : List Char) (eof : Bool)
    (hacc : count ≤ acc.length) :
    seqLoopF count (f + 1) acc rem eof = (acc, rem, eof) := by
  simp [seqLoopF, Nat.not_lt.mpr hacc]

theorem seqLoopF_nil (count f : Nat) (acc : List Char) (eof : Bool)
    (hacc : acc.length < count) :
    seqLoopF count (f + 1) acc [] eof = (acc, [], true) := by
  simp [seqLoopF, hacc]

theorem seqLoopF_gtHead (count f : Nat) (acc t' : List Char) (eof : Bool)
    (hacc : acc.length < count) :
    seqLoopF count (f + 1) acc ('>' :: t') eof = (acc, '>' :: t', eof) := by
  simp [seqLoopF, hacc]

theorem seqLoopF_step (count f : Nat) (acc : List Char) (c : Char)
    (rem' : List Char) (eof : Bool) (hacc : acc.length < count) (hc : c ≠ '>') :
    seqLoopF count (f + 1) acc (c :: rem') eof =
      seqLoopF count f (acc ++ chomp (readLineFrom (c :: rem')).1)
        (readLineFrom (c :: rem')).2.1 (readLineFrom (c :: rem')).2.2 := by
  simp [seqLoopF, hacc, hc]

/-- Reading a wrapped sequence followed by a record start or end-of-input:
the line structure of one encoded chunk. -/
theorem readLineFrom_chunk (term : List Char)
    (hterm : term = ['\n'] ∨ term = ['\r', '\n'])
    (x rest : List Char) (hx : ∀ c ∈ x, isGraphChar c = true) :
    readLineFrom (x ++ term ++ rest) = (x ++ term, rest, false) := by
  have hx' : '\n' ∉ x := fun h => isGraphChar_ne_lf (hx _ h) rfl
  rcases hterm with h | h <;> subst h
  · have := readLineFrom_append x rest hx'
    simpa [List.append_assoc] using this
  · have hcr : '\n' ∉ x ++ ['\r'] := by
      intro h
      rcases List.mem_append.mp h with h | h
      · exact hx' h
      · simp at h
    have := readLineFrom_append (x ++ ['\r']) rest hcr
    simpa [List.append_assoc] using this

/-- Full-consumption behaviour of the `GetNextSequence` loop on a wrapped
sequence: when `count` exceeds everything that can be accumulated, the
whole de-wrapped sequence is read and the stream is left at the next
record start (or at end-of-input with the EOF flag set). -/
theorem seqLoop_wrap_full (w : Nat) (term : List Char) (hw : 0 < w)
    (hterm : term = ['\n'] ∨ term = ['\r', '\n']) :
    ∀ fuel count (s acc tail : List Char),
      (∀ c ∈ s, isSeqChar c = true) →
      (tail = [] ∨ ∃ t', tail = '>' :: t') →
      acc.length + s.length < count →
      (wrapBody w term s).length + tail.length < fuel →
      seqLoopF count fuel acc (wrapBody w term s ++ tail) false =
        (acc ++ s, tail, tail.isEmpty) := by
  intro fuel
  induction fuel with
  | zero => intro count s acc tail _ _ _ hfuel; omega
  | succ f ih =>
    intro count s acc tail hs htail hcount hfuel
    have hacc : acc.length < count := by omega
    cases hsn : s with
    | nil =>
      subst hsn
      rcases htail with h | ⟨t', h⟩ <;> subst h
      · simpa [wrapBody, wrapGo] using seqLoopF_nil count f acc false hacc
      · simpa [wrapBody, wrapGo] using seqLoopF_gtHead count f acc t' false hacc
    | cons c cs =>
      subst hsn
      set s := c :: cs with hsdef
      have hsne : s ≠ [] := by simp [hsdef]
      have htake : ∀ a ∈ s.take w, isGraphChar a = true :=
        fun a ha => isSeqChar_graph (hs a (List.mem_of_mem_take ha))
      have hline :
          readLineFrom (wrapBody w term s ++ tail) =
            (s.take w ++ term, wrapBody w term (s.drop w) ++ tail, false) := by
        rw [wrapBody_cons w term hw s hsne]
        have := readLineFrom_chunk term hterm (s.take w)
          (wrapBody w term (s.drop w) ++ tail) htake
        simpa [List.append_assoc] using this
      have hhead : wrapBody w term s ++ tail =
          c :: (cs.take (w - 1) ++ term ++ (wrapBody w term (s.drop w) ++ tail)) := by
        rw [wrapBody_cons w term hw s hsne]
        obtain ⟨w', rfl⟩ : ∃ w', w = w' + 1 := ⟨w - 1, by omega⟩
        simp [hsdef, List.take_succ_cons, List.append_assoc]
      have hcne : c ≠ '>' := isSeqChar_ne_gt (hs c (by simp [hsdef]))
      rw [hhead, seqLoopF_step count f acc c _ false hacc hcne, ← hhead, hline]
      simp only
      rw [chomp_append_term (s.take w) term
        (by rcases hterm with h | h <;> subst h <;> intro a ha <;>
          simp [lfChar, crChar] at ha ⊢ <;> tauto) htake]
      have hterm_len : 1 ≤ term.length := by
        rcases hterm with h | h <;> simp [h]
      have hwrap_len := le_length_wrapBody w term hw (s.drop w)
      have hrec := ih count (s.drop w) (acc ++ s.take w) tail
        (fun a ha => hs a (List.mem_of_mem_drop ha))
        htail
        (by
          simp only [List.length_append, List.length_take, List.length_drop]
          have : min w s.length + (s.length - w) = s.length := by omega
          omega)
        (by
          rw [wrapBody_cons w term hw s hsne] at hfuel
          simp only [List.length_append] at hfuel ⊢
          have h1 : 1 ≤ (s.take w).length := by
            simp [List.length_take, hsdef]; omega
          omega)
      rw [hrec, List.append_assoc, List.take_append_drop]

/-- Prefix behaviour of the `GetNextSequence` loop with an arbitrary
`count`: the accumulated string is a `take`-prefix of the de-wrapped
sequence that either is the whole sequence or has reached `count`
characters. -/
theorem seqLoop_wrap_pre (w : Nat) (term : List Char) (hw : 0 < w)
    (hterm : term = ['\n'] ∨ term = ['\r', '\n']) :
    ∀ fuel count (s acc tail : List Char),
      (∀ c ∈ s, isSeqChar c = true) →
      (tail = [] ∨ ∃ t', tail = '>' :: t') →
      (wrapBody w term s).length + tail.length < fuel →
      ∃ k, (seqLoopF count fuel acc (wrapBody w term s ++ tail) false).1 =
          acc ++ s.take k ∧
        (s.take k = s ∨ count ≤ acc.length + k) := by
  intro fuel
  induction fuel with
  | zero => intro count s acc tail _ _ hfuel; omega
  | succ f ih =>
    intro count s acc tail hs htail hfuel
    by_cases hacc : acc.length < count
    · cases hsn : s with
      | nil =>
        subst hsn
        refine ⟨0, ?_, Or.inl rfl⟩
        rcases htail with h | ⟨t', h⟩ <;> subst h
        · simp [wrapBody, wrapGo, seqLoopF_nil count f acc false hacc]
        · simp [wrapBody, wrapGo, seqLoopF_gtHead count f acc t' false hacc]
      | cons c cs =>
        subst hsn
        set s := c :: cs with hsdef
        have hsne : s ≠ [] := by simp [hsdef]
        have htake : ∀ a ∈ s.take w, isGraphChar a = true :=
          fun a ha => isSeqChar_graph (hs a (List.mem_of_mem_take ha))
        have hline :
            readLineFrom (wrapBody w term s ++ tail) =
              (s.take w ++ term, wrapBody w term (s.drop w) ++ tail, false) := by
          rw [wrapBody_cons w term hw s hsne]
          have := readLineFrom_chunk term hterm (s.take w)
            (wrapBody w term (s.drop w) ++ tail) htake
          simpa [List.append_assoc] using this
        have hhead : wrapBody w term s ++ tail =
            c :: (cs.take (w - 1) ++ term ++
              (wrapBody w term (s.drop w) ++ tail)) := by
          rw [wrapBody_cons w term hw s hsne]
          obtain ⟨w', rfl⟩ : ∃ w', w = w' + 1 := ⟨w - 1, by omega⟩
          simp [hsdef, List.take_succ_cons, List.append_assoc]
        have hcne : c ≠ '>' := isSeqChar_ne_gt (hs c (by simp [hsdef]))
        rw [hhead, seqLoopF_step count f acc c _ false hacc hcne, ← hhead, hline]
        simp only
        rw [chomp_append_term (s.take w) term
          (by rcases hterm with h | h <;> subst h <;> intro a ha <;>
            simp [lfChar, crChar] at ha ⊢ <;> tauto) htake]
        have hterm_len : 1 ≤ term.length := by
          rcases hterm with h | h <;> simp [h]
        obtain ⟨k', hk1, hk2⟩ := ih count (s.drop w) (acc ++ s.take w) tail
          (fun a ha => hs a (List.mem_of_mem_drop ha))
          htail
          (by
            rw [wrapBody_cons w term hw s hsne] at hfuel
            simp only [List.length_append] at hfuel ⊢
            have h1 : 1 ≤ (s.take w).length := by
              simp [List.length_take, hsdef]; omega
            omega)
        refine ⟨w + k', ?_, ?_⟩
        · rw [hk1, List.take_add, List.append_assoc]
        · rcases hk2 with h | h
          · left
            rw [List.take_add, h, List.take_append_drop]
          · right
            simp only [List.length_append, List.length_take] at h ⊢
            omega
    · obtain ⟨c0, rem0, hrem⟩ | hrem :
          (∃ c0 rem0, wrapBody w term s ++ tail = c0 :: rem0) ∨
            wrapBody w term s ++ tail = [] := by
        cases hrem : wrapBody w term s ++ tail with
        | nil => exact Or.inr rfl
        | cons a b => exact Or.inl ⟨a, b, rfl⟩
      · rw [hrem, seqLoopF_ge count f acc _ false (by omega), ← hrem]
        exact ⟨0, by simp, Or.inr (by omega)⟩
      · rw [hrem, seqLoopF_ge count f acc _ false (by omega)]
        exact ⟨0, by simp, Or.inr (by omega)⟩

/-! ## Lemmas: `geomLoop` -/

theorem geomLoop_append (x r : List Char)
    (hx : ∀ c ∈ x, c.toNat < 128 ∧ c ≠ '\n') :
    geomLoop (x ++ '\n' :: r) = (x.length, x.countP (fun c => isGraphChar c)) := by
  induction x with
  | nil => simp [geomLoop]
  | cons c cs ih =>
    obtain ⟨h1, h2⟩ := hx c (List.mem_cons_self c cs)
    have hcond : ¬(128 ≤ c.toNat ∨ c = '\n') := by
      push_neg; exact ⟨by omega, h2⟩
    simp only [List.cons_append, geomLoop, decide_eq_true_eq, List.append_eq]
    rw [if_neg (by simpa using hcond),
      ih (fun a ha => hx a (List.mem_cons_of_mem c ha))]
    simp only [List.length_cons, List.countP_cons]
    by_cases hg : isGraphChar c = true <;> simp [hg, Nat.add_comm]

/-! ## Lemmas: encoded files and the scanning steps -/

/-- The record conditions of `WellFormed` restricted to a sublist of
records (used while inducting along the file). -/
def RecOk (rs : List FastaRecord) : Prop :=
  (∀ r ∈ rs, r.name ≠ [] ∧ ∀ c ∈ r.name, isGraphChar c = true) ∧
    ∀ r ∈ rs, ∀ c ∈ r.seq, isSeqChar c = true

theorem RecOk.tail {r : FastaRecord} {rs : List FastaRecord}
    (h : RecOk (r :: rs)) : RecOk rs :=
  ⟨fun a ha => h.1 a (List.mem_cons_of_mem r ha),
   fun a ha => h.2 a (List.mem_cons_of_mem r ha)⟩

theorem RecOk.head {r : FastaRecord} {rs : List FastaRecord}
    (h : RecOk (r :: rs)) :
    (r.name ≠ [] ∧ ∀ c ∈ r.name, isGraphChar c = true) ∧
      ∀ c ∈ r.seq, isSeqChar c = true :=
  ⟨h.1 r (List.mem_cons_self r rs), h.2 r (List.mem_cons_self r rs)⟩

theorem encodeFasta_cons (w : Nat) (term : List Char) (r : FastaRecord)
    (rs : List FastaRecord) :
    encodeFasta w term (r :: rs) = encodeRecord w term r ++ encodeFasta w term rs :=
  rfl

theorem encodeFasta_append (w : Nat) (term : List Char)
    (a b : List FastaRecord) :
    encodeFasta w term (a ++ b) = encodeFasta w term a ++ encodeFasta w term b := by
  induction a with
  | nil => rfl
  | cons r rs ih => simp [encodeFasta_cons, ih, List.append_assoc]

theorem encodeFasta_shape (w : Nat) (term : List Char) (rs : List FastaRecord) :
    encodeFasta w term rs = [] ∨ ∃ t', encodeFasta w term rs = '>' :: t' := by
  cases rs with
  | nil => exact Or.inl rfl
  | cons r rs' =>
    exact Or.inr ⟨r.name ++ term ++ wrapBody w term r.seq ++ encodeFasta w term rs',
      by simp [encodeFasta_cons, encodeRecord, List.append_assoc]⟩

theorem encodeFasta_ne_nil (w : Nat) (term : List Char) (r : FastaRecord)
    (rs : List FastaRecord) : encodeFasta w term (r :: rs) ≠ [] := by
  simp [encodeFasta_cons, encodeRecord]

/-- `GetNextHeader` on an encoded record: succeeds, returns the header line
(with its terminator) and leaves the stream at the wrapped body. -/
theorem gnhStep_encode (w : Nat) (term : List Char)
    (hterm : term = ['\n'] ∨ term = ['\r', '\n'])
    (r : FastaRecord) (rest : List Char)
    (hname : ∀ c ∈ r.name, isGraphChar c = true) :
    gnhStep (encodeRecord w term r ++ rest) false =
      ⟨true, ('>' :: r.name) ++ term, wrapBody w term r.seq ++ rest, false⟩ := by
  have hgt : ∀ c ∈ '>' :: r.name, isGraphChar c = true := by
    intro c hc
    rcases List.mem_cons.mp hc with h | h
    · subst h; decide
    · exact hname c h
  have hline := readLineFrom_chunk term hterm ('>' :: r.name)
    (wrapBody w term r.seq ++ rest) hgt
  simp only [List.cons_append, List.append_assoc] at hline
  have hstream : encodeRecord w term r ++ rest =
      '>' :: (r.name ++ (term ++ (wrapBody w term r.seq ++ rest))) := by
    simp [encodeRecord, List.append_assoc]
  rw [hstream]
  simp [gnhStep, hline, List.append_assoc]

/-- `GetNameFromHeader` on an encoded header line recovers the name. -/
theorem getName_encode (term : List Char)
    (hterm : term = ['\n'] ∨ term = ['\r', '\n'])
    (name : List Char) (hne : name ≠ [])
    (hname : ∀ c ∈ name, isGraphChar c = true) :
    getNameFromHeader (('>' :: name) ++ term) = some name := by
  unfold getNameFromHeader
  simp only [List.cons_append, List.drop_succ_cons, List.drop_zero]
  have hdrop : (name ++ term).dropWhile isNameWs = name ++ term := by
    apply dropWhile_head_false
    intro x hx
    obtain ⟨c, cs, rfl⟩ := List.exists_cons_of_ne_nil hne
    simp only [List.cons_append, List.head?_cons, Option.some.injEq] at hx
    subst hx
    exact isGraphChar_not_nameWs (hname c (List.mem_cons_self c cs))
  rw [hdrop]
  have htake : (name ++ term).takeWhile (fun c => !isNameWs c) = name := by
    rcases hterm with h | h <;> subst h
    · exact takeWhile_middle _ name '\n' []
        (fun c hc => by simp [isGraphChar_not_nameWs (hname c hc)])
        (by simp [isNameWs])
    · exact takeWhile_middle _ name '\r' ['\n']
        (fun c hc => by simp [isGraphChar_not_nameWs (hname c hc)])
        (by simp [isNameWs])
  rw [htake, if_neg hne]

/-- One sequential-scan step on an encoded file: the first record's
sequence is retrieved and the stream is left at the start of the second
record (or at EOF). -/
theorem scanStep_encode (w : Nat) (term : List Char) (hw : 0 < w)
    (hterm : term = ['\n'] ∨ term = ['\r', '\n'])
    (r : FastaRecord) (rs : List FastaRecord) (hok : RecOk (r :: rs)) :
    scanStep (encodeFasta w term (r :: rs)) false =
      ⟨true, r.seq, encodeFasta w term rs, (encodeFasta w term rs).isEmpty⟩ := by
  have hname := (hok.head).1.2
  have hseq := (hok.head).2
  rw [encodeFasta_cons]
  unfold scanStep
  rw [gnhStep_encode w term hterm r (encodeFasta w term rs) hname]
  simp only
  unfold seqStepAll seqStep
  simp only [Bool.false_eq_true, if_false]
  have hfull := seqLoop_wrap_full w term hw hterm
    ((wrapBody w term r.seq ++ encodeFasta w term rs).length + 1)
    ((wrapBody w term r.seq ++ encodeFasta w term rs).length + 1)
    r.seq [] (encodeFasta w term rs)
    hseq
    (encodeFasta_shape w term rs)
    (by
      have := le_length_wrapBody w term hw r.seq
      simp only [List.length_append, List.nil_append, List.length_nil]
      omega)
    (by simp [List.length_append])
  rw [hfull]
  simp

theorem scanStep_nil (b : Bool) : scanStep [] b = ⟨false, [], [], true⟩ := by
  cases b <;> rfl

theorem scanToRecord_nil : ∀ (i : Nat) (b : Bool),
    scanToRecord i [] b = ⟨false, [], [], true⟩ := by
  intro i
  induction i with
  | zero => intro b; exact scanStep_nil b
  | succ n ih =>
    intro b
    show scanToRecord n (scanStep [] b).rem (scanStep [] b).eof = _
    rw [scanStep_nil b]
    exact ih true

/-- The sequential fallback on an encoded file retrieves exactly the `i`-th
record's de-wrapped sequence. -/
theorem scanToRecord_encode (w : Nat) (term : List Char) (hw : 0 < w)
    (hterm : term = ['\n'] ∨ term = ['\r', '\n']) :
    ∀ (i : Nat) (rs : List FastaRecord), RecOk rs → (hi : i < rs.length) →
      (scanToRecord i (encodeFasta w term rs) false).text = rs[i].seq := by
  intro i
  induction i with
  | zero =>
    intro rs hok hi
    cases rs with
    | nil => simp at hi
    | cons r rs' =>
      show (scanStep (encodeFasta w term (r :: rs')) false).text = _
      rw [scanStep_encode w term hw hterm r rs' hok]
      simp
  | succ n ih =>
    intro rs hok hi
    cases rs with
    | nil => simp at hi
    | cons r rs' =>
      have hn : n < rs'.length := by
        simpa [List.length_cons] using hi
      show (scanToRecord n (scanStep (encodeFasta w term (r :: rs')) false).rem
        (scanStep (encodeFasta w term (r :: rs')) false).eof).text = _
      rw [scanStep_encode w term hw hterm r rs' hok]
      have hne : rs' ≠ [] := by
        intro h; subst h; simp at hn
      obtain ⟨r', rs'', rfl⟩ := List.exists_cons_of_ne_nil hne
      simp only [List.getElem_cons_succ]
      have : (encodeFasta w term (r' :: rs'')).isEmpty = false := by
        simp [List.isEmpty_iff, encodeFasta_ne_nil]
      rw [this]
      exact ih (r' :: rs'') hok.tail hn

/-- `GetNextSequence` with the defaulted unbounded count, started at a
wrapped body: the whole de-wrapped sequence is accumulated. -/
theorem seqStepAll_wrap (w : Nat) (term : List Char) (hw : 0 < w)
    (hterm : term = ['\n'] ∨ term = ['\r', '\n'])
    (s tail : List Char) (hs : ∀ c ∈ s, isSeqChar c = true)
    (htail : tail = [] ∨ ∃ t', tail = '>' :: t') :
    seqStepAll (wrapBody w term s ++ tail) false =
      ⟨true, s, tail, tail.isEmpty⟩ := by
  unfold seqStepAll seqStep
  simp only [Bool.false_eq_true, if_false]
  have hfull := seqLoop_wrap_full w term hw hterm
    ((wrapBody w term s ++ tail).length + 1)
    ((wrapBody w term s ++ tail).length + 1)
    s [] tail hs htail
    (by
      have := le_length_wrapBody w term hw s
      simp only [List.length_append, List.nil_append, List.length_nil]
      omega)
    (by simp [List.length_append])
  rw [hfull]
  simp

/-- Past the last record the sequential fallback retrieves the empty
string (every further `GetNextHeader`/`GetNextSequence` fails and the
out-string stays cleared). -/
theorem scanToRecord_encode_beyond (w : Nat) (term : List Char) (hw : 0 < w)
    (hterm : term = ['\n'] ∨ term = ['\r', '\n']) :
    ∀ (rs : List FastaRecord) (i : Nat), RecOk rs → rs.length ≤ i →
      (scanToRecord i (encodeFasta w term rs) false).text = [] := by
  intro rs
  induction rs with
  | nil =>
    intro i _ _
    show (scanToRecord i [] false).text = []
    rw [scanToRecord_nil i false]
  | cons r rs' ih =>
    intro i hok hi
    obtain ⟨n, rfl⟩ : ∃ n, i = n + 1 := by
      cases i with
      | zero => simp at hi
      | succ n => exact ⟨n, rfl⟩
    show (scanToRecord n (scanStep (encodeFasta w term (r :: rs')) false).rem
      (scanStep (encodeFasta w term (r :: rs')) false).eof).text = _
    rw [scanStep_encode w term hw hterm r rs' hok]
    cases rs' with
    | nil =>
      show (scanToRecord n [] _).text = _
      rw [scanToRecord_nil n]
    | cons r' rs'' =>
      have hne : (encodeFasta w term (r' :: rs'')).isEmpty = false := by
        simp [List.isEmpty_iff, encodeFasta_ne_nil]
      simp only [hne]
      exact ih n hok.tail (by simp [List.length_cons] at hi ⊢; omega)

/-! ## Lemmas: `CreateIndex` on an encoded well-formed file -/

theorem encodeRecord_length (w : Nat) (term : List Char) (r : FastaRecord) :
    (encodeRecord w term r).length =
      1 + r.name.length + term.length + (wrapBody w term r.seq).length := by
  simp only [encodeRecord, List.length_cons, List.length_append]
  omega

/-- The geometry scan over the first record's wrapped body measures the
global line length `w` and byte length `w + |term|` (before the final
`++byteLength` for the stored newline, which this lemma accounts for by
returning `w + |term| - 1`). -/
theorem geomLoop_wrap (w : Nat) (term : List Char) (hw : 0 < w)
    (hterm : term = ['\n'] ∨ term = ['\r', '\n'])
    (s rest : List Char) (hs : ∀ c ∈ s, isSeqChar c = true)
    (hlen : w ≤ s.length) :
    geomLoop (wrapBody w term s ++ rest) = (w + term.length - 1, w) := by
  have hsne : s ≠ [] := by
    intro h; subst h; simp at hlen; omega
  rw [wrapBody_cons w term hw s hsne]
  have htakelen : (s.take w).length = w := by
    simp [List.length_take]; omega
  have htake : ∀ a ∈ s.take w, isGraphChar a = true :=
    fun a ha => isSeqChar_graph (hs a (List.mem_of_mem_take ha))
  rcases hterm with h | h <;> subst h
  · have := geomLoop_append (s.take w) (wrapBody w ['\n'] (s.drop w) ++ rest)
      (fun c hc => ⟨isGraphChar_lt_128 (htake c hc), isGraphChar_ne_lf (htake c hc)⟩)
    rw [show s.take w ++ ['\n'] ++ wrapBody w ['\n'] (s.drop w) ++ rest =
        s.take w ++ '\n' :: (wrapBody w ['\n'] (s.drop w) ++ rest) by
      simp [List.append_assoc]]
    rw [this, htakelen, List.countP_eq_length.mpr htake, htakelen]
    simp
  · have hx : ∀ c ∈ s.take w ++ ['\r'], c.toNat < 128 ∧ c ≠ '\n' := by
      intro c hc
      rcases List.mem_append.mp hc with h | h
      · exact ⟨isGraphChar_lt_128 (htake c h), isGraphChar_ne_lf (htake c h)⟩
      · simp only [List.mem_singleton] at h
        subst h
        exact ⟨by decide, by decide⟩
    have := geomLoop_append (s.take w ++ ['\r'])
      (wrapBody w ['\r', '\n'] (s.drop w) ++ rest) hx
    rw [show s.take w ++ ['\r', '\n'] ++ wrapBody w ['\r', '\n'] (s.drop w) ++ rest =
        (s.take w ++ ['\r']) ++ '\n' :: (wrapBody w ['\r', '\n'] (s.drop w) ++ rest) by
      simp [List.append_assoc]]
    rw [this]
    have hcount : (s.take w ++ ['\r']).countP (fun c => isGraphChar c) = w := by
      rw [List.countP_append, List.countP_eq_length.mpr htake, htakelen]
      simp [isGraphChar, crChar]
    rw [hcount]
    simp [htakelen]

/-- The entry-building loop of `CreateIndex` over an encoded file produces
exactly the expected index table. -/
theorem ciLoop_encode (w : Nat) (term : List Char) (hw : 0 < w)
    (hterm : term = ['\n'] ∨ term = ['\r', '\n']) :
    ∀ (rs : List FastaRecord) (fuel total : Nat) (acc : List FastaIndexData),
      RecOk rs →
      (encodeFasta w term rs).length < fuel →
      (encodeFasta w term rs).length ≤ total →
      ciLoopF w (w + term.length) total fuel (encodeFasta w term rs)
          (encodeFasta w term rs).isEmpty acc =
        (none, acc ++ expectedIndex w term (total - (encodeFasta w term rs).length) rs) := by
  intro rs
  induction rs with
  | nil =>
    intro fuel total acc _ hfuel _
    obtain ⟨f, rfl⟩ : ∃ f, fuel = f + 1 := ⟨fuel - 1, by omega⟩
    simp [ciLoopF, gnhStep, encodeFasta, expectedIndex]
  | cons r rest ih =>
    intro fuel total acc hok hfuel htotal
    obtain ⟨f, rfl⟩ : ∃ f, fuel = f + 1 := ⟨fuel - 1, by omega⟩
    have hne : (encodeFasta w term (r :: rest)).isEmpty = false := by
      simp [List.isEmpty_iff, encodeFasta_ne_nil]
    rw [hne]
    show (let g := gnhStep (encodeFasta w term (r :: rest)) false
      if !g.ok then (none, acc)
      else
        let offset : Nat := total - g.rem.length
        match getNameFromHeader g.text with
        | none => (some .formatName, acc)
        | some name =>
          let s := seqStepAll g.rem g.eof
          if !s.ok then (some .readSeq, acc)
          else
            ciLoopF w (w + term.length) total f s.rem s.eof
              (acc ++ [⟨name, (s.text.length : Int), (offset : Int),
                       (w : Int), ((w + term.length : Nat) : Int)⟩])) = _
    rw [encodeFasta_cons]
    rw [gnhStep_encode w term hterm r (encodeFasta w term rest) (hok.head).1.2]
    simp only [Bool.not_true, Bool.false_eq_true, if_false]
    rw [getName_encode term hterm r.name (hok.head).1.1 (hok.head).1.2]
    rw [seqStepAll_wrap w term hw hterm r.seq (encodeFasta w term rest)
      (hok.head).2 (encodeFasta_shape w term rest)]
    simp only [Bool.not_true, Bool.false_eq_true, if_false]
    have henc : (encodeFasta w term (r :: rest)).length =
        (encodeRecord w term r).length + (encodeFasta w term rest).length := by
      rw [encodeFasta_cons, List.length_append]
    have hreclen := encodeRecord_length w term r
    have hrec := ih f total
      (acc ++ [⟨r.name, (r.seq.length : Int),
        ((total - (wrapBody w term r.seq ++ encodeFasta w term rest).length : Nat) : Int),
        (w : Int), ((w + term.length : Nat) : Int)⟩])
      hok.tail
      (by rw [encodeFasta_cons] at hfuel
          simp only [List.length_append] at hfuel
          have : 1 ≤ (encodeRecord w term r).length := by
            simp [encodeRecord]
          omega)
      (by rw [encodeFasta_cons] at htotal
          simp only [List.length_append] at htotal
          omega)
    have htot2 : 1 + r.name.length + term.length + (wrapBody w term r.seq).length +
        (encodeFasta w term rest).length ≤ total := by
      rw [encodeFasta_cons] at htotal
      simp only [List.length_append, hreclen] at htotal
      omega
    rw [hrec]
    simp only [expectedIndex, List.append_assoc, List.singleton_append,
      List.length_append, hreclen]
    congr 3
    · congr 1
      omega
    · congr 1
      omega

/-- `CreateIndex` on a session opened over an encoded well-formed file:
the in-memory table is always built and equals the expected index; the
call succeeds exactly when an index filename was given (otherwise
`WriteIndexData` fails and `HasIndex` stays unset). -/
theorem createIndex_encode (w : Nat) (term : List Char)
    (rs : List FastaRecord) (hwf : WellFormed w term rs) (b : Bool) :
    createIndex (openNoIndex (encodeFasta w term rs)) b =
      ((if b then .err .indexWrite else .ok ()),
       { file := ⟨encodeFasta w term rs, 0, false⟩
         isOpen := true
         hasIndex := !b
         isIndexOpen := false
         index := expectedIndex w term 0 rs }) := by
  obtain ⟨hw, hterm, hne, hnames, hseqs, hfirst⟩ := hwf
  obtain ⟨r0, rest, rfl⟩ := List.exists_cons_of_ne_nil hne
  have hok : RecOk (r0 :: rest) := ⟨hnames, hseqs⟩
  have hfirst' : w ≤ r0.seq.length := by simpa using hfirst
  have hs0ne : r0.seq ≠ [] := by
    intro h; rw [h] at hfirst'; simp at hfirst'; omega
  have hdata : encodeFasta w term (r0 :: rest) =
      '>' :: (r0.name ++ (term ++ (wrapBody w term r0.seq ++
        encodeFasta w term rest))) := by
    simp [encodeFasta_cons, encodeRecord, List.append_assoc]
  have hgt : ∀ c ∈ '>' :: r0.name, isGraphChar c = true := by
    intro c hc
    rcases List.mem_cons.mp hc with h | h
    · subst h; decide
    · exact (hok.head).1.2 c h
  have hline := readLineFrom_chunk term hterm ('>' :: r0.name)
    (wrapBody w term r0.seq ++ encodeFasta w term rest) hgt
  simp only [List.cons_append, List.append_assoc] at hline
  have hgeom := geomLoop_wrap w term hw hterm r0.seq
    (encodeFasta w term rest) (hok.head).2 hfirst'
  have htermlen : 1 ≤ term.length := by
    rcases hterm with h | h <;> simp [h]
  have hci := ciLoop_encode w term hw hterm (r0 :: rest)
    ((encodeFasta w term (r0 :: rest)).length + 1)
    (encodeFasta w term (r0 :: rest)).length []
    hok (by omega) le_rfl
  rw [show (encodeFasta w term (r0 :: rest)).isEmpty = false by
    simp [List.isEmpty_iff, encodeFasta_ne_nil]] at hci
  unfold createIndex
  simp only [openNoIndex, Bool.not_true, Bool.false_eq_true, if_false]
  rw [hdata]
  simp only
  rw [← hdata]
  have hrl : readLineFrom (encodeFasta w term (r0 :: rest)) =
      ('>' :: (r0.name ++ term), wrapBody w term r0.seq ++
        encodeFasta w term rest, false) := by
    rw [hdata]
    simpa [List.append_assoc] using hline
  rw [hrl]
  simp only [Bool.false_eq_true, if_false]
  rw [if_neg (by simp)]
  rw [hgeom]
  simp only
  rw [show w + term.length - 1 + 1 = w + term.length by omega]
  rw [hci]
  simp only [List.nil_append, Nat.sub_self]
  cases b <;> simp

/-! ## Lemmas: decimal serialization round-trip -/

theorem natCharsF_irrel (f n : Nat) (h : n < f) : natCharsF f n = natChars n := by
  obtain ⟨f', rfl⟩ : ∃ f', f = f' + 1 := ⟨f - 1, by omega⟩
  by_cases h10 : n < 10
  · simp [natCharsF, natChars, h10]
  · show natCharsF (f' + 1) n = natCharsF (n + 1) n
    simp only [natCharsF, if_neg h10]
    have hdiv : n / 10 < n := Nat.div_lt_self (by omega) (by omega)
    rw [natCharsF_irrel f' (n / 10) (by omega),
      natCharsF_irrel n (n / 10) (by omega)]
termination_by f

theorem natChars_unfold (n : Nat) :
    natChars n = if n < 10 then [Char.ofNat (48 + n)]
      else natChars (n / 10) ++ [Char.ofNat (48 + n % 10)] := by
  show natCharsF (n + 1) n = _
  by_cases h10 : n < 10
  · simp [natCharsF, h10]
  · simp only [natCharsF, if_neg h10]
    rw [natCharsF_irrel n (n / 10) (Nat.div_lt_self (by omega) (by omega))]

theorem digitChar_toNat (d : Nat) (h : d < 10) :
    (Char.ofNat (48 + d)).toNat = 48 + d := by
  interval_cases d <;> decide

theorem digitChar_isDigit (d : Nat) (h : d < 10) :
    isDigitCh (Char.ofNat (48 + d)) = true := by
  interval_cases d <;> decide

theorem natChars_ne_nil (n : Nat) : natChars n ≠ [] := by
  rw [natChars_unfold n]
  by_cases h10 : n < 10 <;> simp [h10]

theorem natChars_digits (n : Nat) : ∀ c ∈ natChars n, isDigitCh c = true := by
  intro c hc
  rw [natChars_unfold n] at hc
  by_cases h10 : n < 10
  · rw [if_pos h10] at hc
    simp only [List.mem_singleton] at hc
    subst hc
    exact digitChar_isDigit n h10
  · rw [if_neg h10] at hc
    rcases List.mem_append.mp hc with h | h
    · exact natChars_digits (n / 10) c h
    · simp only [List.mem_singleton] at h
      subst h
      exact digitChar_isDigit (n % 10) (Nat.mod_lt n (by omega))
termination_by n
decreasing_by
  exact Nat.div_lt_self (by omega) (by omega)

theorem isDigitCh_not_streamWs {c : Char} (h : isDigitCh c = true) :
    isStreamWs c = false := by
  simp only [isDigitCh, Bool.and_eq_true, decide_eq_true_eq] at h
  simp only [isStreamWs, Bool.or_eq_false_iff, Bool.and_eq_false_iff,
    decide_eq_false_iff_not]
  omega

theorem isDigitCh_ne_minus {c : Char} (h : isDigitCh c = true) : c ≠ '-' := by
  intro hc; subst hc; simp [isDigitCh] at h

theorem isDigitCh_ne_plus {c : Char} (h : isDigitCh c = true) : c ≠ '+' := by
  intro hc; subst hc; simp [isDigitCh] at h

theorem isDigitCh_ne_lf {c : Char} (h : isDigitCh c = true) : c ≠ '\n' := by
  intro hc; subst hc; simp [isDigitCh] at h

theorem parseNat_foldl (n : Nat) : ∀ acc : Nat,
    (natChars n).foldl (fun a c => a * 10 + (c.toNat - 48)) acc =
      acc * 10 ^ (natChars n).length + n := by
  intro acc
  rw [natChars_unfold n]
  by_cases h10 : n < 10
  · rw [if_pos h10]
    simp [List.foldl, digitChar_toNat n h10]
  · rw [if_neg h10]
    rw [List.foldl_append, parseNat_foldl (n / 10) acc]
    simp only [List.foldl_cons, List.foldl_nil, List.length_append,
      List.length_singleton]
    rw [digitChar_toNat (n % 10) (Nat.mod_lt n (by omega))]
    rw [pow_succ]
    have : acc * (10 ^ (natChars (n / 10)).length * 10) =
        acc * 10 ^ (natChars (n / 10)).length * 10 := by ring
    rw [this]
    have hmod : n / 10 * 10 + n % 10 = n := by omega
    omega
termination_by n
decreasing_by
  exact Nat.div_lt_self (by omega) (by omega)

theorem parseNatList_natChars (n : Nat) : parseNatList (natChars n) = n := by
  unfold parseNatList
  rw [parseNat_foldl n 0]
  simp

theorem intChars_chars (v : Int) :
    ∀ c ∈ intChars v, isDigitCh c = true ∨ c = '-' := by
  intro c hc
  unfold intChars at hc
  by_cases hv : v < 0
  · rw [if_pos hv] at hc
    rcases List.mem_cons.mp hc with h | h
    · exact Or.inr h
    · exact Or.inl (natChars_digits _ c h)
  · rw [if_neg hv] at hc
    exact Or.inl (natChars_digits _ c hc)

theorem intChars_ne_lf (v : Int) : ∀ c ∈ intChars v, c ≠ '\n' := by
  intro c hc
  rcases intChars_chars v c hc with h | h
  · exact isDigitCh_ne_lf h
  · subst h; decide

/-- `istream >> std::string` on a serialized name followed by a tab. -/
theorem extractToken_chunk (nm : List Char) (d : Char) (rest : List Char)
    (hne : nm ≠ []) (hnm : ∀ c ∈ nm, isStreamWs c = false)
    (hd : isStreamWs d = true) :
    extractToken (nm ++ d :: rest) = (some nm, d :: rest) := by
  have hdrop : (nm ++ d :: rest).dropWhile isStreamWs = nm ++ d :: rest := by
    apply dropWhile_head_false
    intro x hx
    obtain ⟨c, cs, rfl⟩ := List.exists_cons_of_ne_nil hne
    simp only [List.cons_append, List.head?_cons, Option.some.injEq] at hx
    subst hx
    exact hnm c (List.mem_cons_self c cs)
  have htake : (nm ++ d :: rest).takeWhile (fun c => !isStreamWs c) = nm :=
    takeWhile_middle _ nm d rest (fun c hc => by simp [hnm c hc]) (by simp [hd])
  simp only [extractToken, hdrop, htake, if_neg hne, List.drop_left]

/-- Reduction of `extractInt` when the first significant character is a
minus sign. -/
theorem extractInt_neg_case (s u : List Char)
    (hs : s.dropWhile isStreamWs = '-' :: u) :
    extractInt s =
      (if u.takeWhile isDigitCh = [] then (none, '-' :: u)
       else (some (-(parseNatList (u.takeWhile isDigitCh) : Int)),
         u.drop (u.takeWhile isDigitCh).length)) := by
  unfold extractInt
  rw [hs]
  simp

/-- Reduction of `extractInt` when the first significant character is
neither sign. -/
theorem extractInt_digit_case (s u : List Char) (c : Char)
    (hs : s.dropWhile isStreamWs = c :: u) (hc1 : c ≠ '-') (hc2 : c ≠ '+') :
    extractInt s =
      (if (c :: u).takeWhile isDigitCh = [] then (none, c :: u)
       else (some ((parseNatList ((c :: u).takeWhile isDigitCh) : Nat) : Int),
         (c :: u).drop ((c :: u).takeWhile isDigitCh).length)) := by
  unfold extractInt
  rw [hs]
  simp [hc1, hc2]

/-- `istream >> intField` on a tab followed by a serialized integer and a
non-digit delimiter. -/
theorem extractInt_chunk (v : Int) (d0 dl : Char) (rest : List Char)
    (hd0 : isStreamWs d0 = true) (hdl : isDigitCh dl = false) :
    extractInt (d0 :: (intChars v ++ dl :: rest)) = (some v, dl :: rest) := by
  have hdropTail : (intChars v ++ dl :: rest).dropWhile isStreamWs =
      intChars v ++ dl :: rest := by
    apply dropWhile_head_false
    intro x hx
    by_cases hv : v < 0
    · rw [show intChars v = '-' :: natChars v.natAbs from by
        unfold intChars; rw [if_pos hv]] at hx
      simp only [List.cons_append, List.head?_cons, Option.some.injEq] at hx
      subst hx
      decide
    · rw [show intChars v = natChars v.toNat from by
        unfold intChars; rw [if_neg hv]] at hx
      obtain ⟨c, cs, hcs⟩ := List.exists_cons_of_ne_nil (natChars_ne_nil v.toNat)
      rw [hcs] at hx
      simp only [List.cons_append, List.head?_cons, Option.some.injEq] at hx
      rw [← hx]
      exact isDigitCh_not_streamWs
        (natChars_digits v.toNat c (hcs ▸ List.mem_cons_self c cs))
  have hdrop : (d0 :: (intChars v ++ dl :: rest)).dropWhile isStreamWs =
      intChars v ++ dl :: rest := by
    rw [List.dropWhile_cons, if_pos hd0]
    exact hdropTail
  by_cases hv : v < 0
  · have hform : intChars v = '-' :: natChars v.natAbs := by
      unfold intChars; rw [if_pos hv]
    have htake : (natChars v.natAbs ++ dl :: rest).takeWhile isDigitCh =
        natChars v.natAbs :=
      takeWhile_middle _ _ dl rest (natChars_digits v.natAbs) hdl
    rw [extractInt_neg_case _ (natChars v.natAbs ++ dl :: rest)
      (by rw [hdrop, hform, List.cons_append])]
    rw [htake, if_neg (natChars_ne_nil v.natAbs), parseNatList_natChars,
      List.drop_left]
    have : -(((v.natAbs : Nat) : Int)) = v := by omega
    rw [this]
  · have hform : intChars v = natChars v.toNat := by
      unfold intChars; rw [if_neg hv]
    obtain ⟨c, cs, hcs⟩ := List.exists_cons_of_ne_nil (natChars_ne_nil v.toNat)
    have hcdig : isDigitCh c = true :=
      natChars_digits v.toNat c (hcs ▸ List.mem_cons_self c cs)
    have htake : (natChars v.toNat ++ dl :: rest).takeWhile isDigitCh =
        natChars v.toNat :=
      takeWhile_middle _ _ dl rest (natChars_digits v.toNat) hdl
    rw [extractInt_digit_case _ (cs ++ dl :: rest) c
      (by rw [hdrop, hform, hcs, List.cons_append])
      (isDigitCh_ne_minus hcdig) (isDigitCh_ne_plus hcdig)]
    rw [show c :: (cs ++ dl :: rest) = natChars v.toNat ++ dl :: rest from by
      rw [hcs, List.cons_append]]
    rw [htake, if_neg (natChars_ne_nil v.toNat), parseNatList_natChars,
      List.drop_left]
    have : ((v.toNat : Nat) : Int) = v := Int.toNat_of_nonneg (by omega)
    rw [this]

/-- Entries whose serialized form can be parsed back: a nonempty,
whitespace-free name (every entry a successful `CreateIndex` builds has
one). -/
def GoodEntry (d : FastaIndexData) : Prop :=
  d.Name ≠ [] ∧ ∀ c ∈ d.Name, isStreamWs c = false

/-- Parsing one serialized index line recovers the entry. -/
theorem parseIndexLine_write (d : FastaIndexData) (hd : GoodEntry d) :
    parseIndexLine false (writeIndexLine d) = (d, false) := by
  obtain ⟨hne, hnm⟩ := hd
  unfold parseIndexLine writeIndexLine
  rw [extractToken_chunk d.Name '\t'
    (intChars d.Length ++ '\t' :: (intChars d.Offset ++ '\t' ::
      (intChars d.LineLength ++ '\t' :: (intChars d.ByteLength ++ ['\n']))))
    hne hnm (by decide)]
  simp only [Bool.false_eq_true, if_false,
    extractInt_chunk d.Length '\t' '\t' _ (by decide) (by decide),
    extractInt_chunk d.Offset '\t' '\t' _ (by decide) (by decide),
    extractInt_chunk d.LineLength '\t' '\t' _ (by decide) (by decide),
    extractInt_chunk d.ByteLength '\t' '\n' [] (by decide) (by decide)]

/-- A serialized index line is its newline-free body plus the final
newline. -/
theorem writeIndexLine_body (d : FastaIndexData) (hd : GoodEntry d) :
    ∃ body, writeIndexLine d = body ++ ['\n'] ∧ '\n' ∉ body ∧ body ≠ [] := by
  refine ⟨d.Name ++ '\t' :: (intChars d.Length ++ '\t' :: (intChars d.Offset ++
    '\t' :: (intChars d.LineLength ++ '\t' :: intChars d.ByteLength))), ?_, ?_, ?_⟩
  · simp [writeIndexLine, List.append_assoc]
  · intro hmem
    have hname : ∀ c ∈ d.Name, c ≠ '\n' := by
      intro c hc heq
      have := hd.2 c hc
      subst heq
      simp [isStreamWs] at this
    have htab : ('\t' : Char) ≠ '\n' := by decide
    simp only [List.mem_append, List.mem_cons] at hmem
    rcases hmem with h | h | h
    · exact hname _ h rfl
    · exact htab h.symm
    · rcases h with h | h | h
      · exact intChars_ne_lf d.Length _ h rfl
      · exact htab h.symm
      · rcases h with h | h | h
        · exact intChars_ne_lf d.Offset _ h rfl
        · exact htab h.symm
        · rcases h with h | h | h
          · exact intChars_ne_lf d.LineLength _ h rfl
          · exact htab h.symm
          · exact intChars_ne_lf d.ByteLength _ h rfl
  · intro h
    rcases List.append_eq_nil.mp h with ⟨h1, -⟩
    exact hd.1 h1

/-- The `LoadIndexData` loop inverts `WriteIndexData` line by line. -/
theorem loadIndexLoop_write : ∀ (t : List FastaIndexData) (fuel : Nat)
    (acc : List FastaIndexData), (∀ d ∈ t, GoodEntry d) →
    (writeIndexData t).length < fuel →
    loadIndexLoopF fuel false (writeIndexData t) acc = acc ++ t := by
  intro t
  induction t with
  | nil =>
    intro fuel acc _ hfuel
    obtain ⟨f, rfl⟩ : ∃ f, fuel = f + 1 := ⟨fuel - 1, by omega⟩
    simp [loadIndexLoopF, writeIndexData]
  | cons d rest ih =>
    intro fuel acc hgood hfuel
    obtain ⟨f, rfl⟩ : ∃ f, fuel = f + 1 := ⟨fuel - 1, by omega⟩
    have hgd : GoodEntry d := hgood d (List.mem_cons_self d rest)
    obtain ⟨body, hbody, hbodynl, hbodyne⟩ := writeIndexLine_body d hgd
    have hwd : writeIndexData (d :: rest) =
        body ++ '\n' :: writeIndexData rest := by
      show (List.map writeIndexLine (d :: rest)).flatten = _
      simp only [List.map_cons, List.flatten_cons, hbody, List.append_assoc,
        List.cons_append, List.nil_append]
      rfl
    have hrl : readLineFrom (writeIndexData (d :: rest)) =
        (writeIndexLine d, writeIndexData rest, false) := by
      rw [hwd, readLineFrom_append body _ hbodynl, hbody]
    obtain ⟨c0, body', rfl⟩ := List.exists_cons_of_ne_nil hbodyne
    have hc0 : c0 ≠ '\n' := fun h => hbodynl (h ▸ List.mem_cons_self c0 body')
    have hshape : writeIndexData (d :: rest) =
        c0 :: (body' ++ '\n' :: writeIndexData rest) := by
      rw [hwd]; simp
    rw [hshape]
    show loadIndexLoopF (f + 1) false (c0 :: (body' ++ '\n' :: writeIndexData rest))
      acc = acc ++ d :: rest
    simp only [loadIndexLoopF, if_neg hc0]
    rw [← hshape, hrl]
    simp only
    rw [parseIndexLine_write d hgd]
    simp only
    rw [ih f (acc ++ [d])
      (fun a ha => hgood a (List.mem_cons_of_mem d ha))
      (by
        rw [hwd] at hfuel
        simp only [List.length_append, List.length_cons] at hfuel
        omega)]
    simp

/-- Round-trip: parsing the persisted form of a table of good entries
recovers the table. -/
theorem loadIndexData_writeIndexData (t : List FastaIndexData)
    (hgood : ∀ d ∈ t, GoodEntry d) :
    loadIndexData (writeIndexData t) = t := by
  unfold loadIndexData
  rw [loadIndexLoop_write t ((writeIndexData t).length + 1) [] hgood (by omega)]
  simp

/-! ## Lemmas: the indexed address-translation formula -/

/-- The core exactness fact behind `GetBase`'s seek formula: in a body
wrapped at `w` visible characters with a terminator of `|term|` bytes, the
byte at offset `(p / w) * (w + |term|) + p % w` is the `p`-th sequence
character. -/
theorem wrap_get (w : Nat) (term : List Char) (hw : 0 < w)
    (s : List Char) (p : Nat) (hp : p < s.length) :
    (wrapBody w term s)[(p / w) * (w + term.length) + p % w]? = s[p]? := by
  have hsne : s ≠ [] := by
    intro h; subst h; simp at hp
  rw [wrapBody_cons w term hw s hsne]
  by_cases hpw : p < w
  · rw [Nat.div_eq_of_lt hpw, Nat.mod_eq_of_lt hpw]
    simp only [Nat.zero_mul, Nat.zero_add]
    rw [List.append_assoc,
      List.getElem?_append_left (by simp [List.length_take]; omega),
      List.getElem?_take, if_pos hpw]
  · push_neg at hpw
    have hsw : w ≤ s.length := le_trans hpw (le_of_lt hp)
    have hplen : (s.take w ++ term).length = w + term.length := by
      simp [List.length_take]; omega
    have hdiv : p / w = (p - w) / w + 1 := by
      obtain ⟨q, rfl⟩ : ∃ q, p = q + w := ⟨p - w, by omega⟩
      rw [Nat.add_div_right q hw]
      simp
    have hmod : p % w = (p - w) % w := by
      obtain ⟨q, rfl⟩ : ∃ q, p = q + w := ⟨p - w, by omega⟩
      rw [Nat.add_mod_right]
      simp
    have hidx : (p / w) * (w + term.length) + p % w =
        (w + term.length) + (((p - w) / w) * (w + term.length) + (p - w) % w) := by
      rw [hdiv, hmod]; ring
    rw [hidx, List.getElem?_append_right (by rw [hplen]; omega)]
    rw [hplen]
    rw [show w + term.length + ((p - w) / w * (w + term.length) + (p - w) % w)
      - (w + term.length) = (p - w) / w * (w + term.length) + (p - w) % w by omega]
    have HR := wrap_get w term hw (s.drop w) (p - w)
      (by simp [List.length_drop]; omega)
    rw [HR, List.getElem?_drop]
    congr 1
    omega
termination_by s.length
decreasing_by
  simp only [List.length_drop]
  omega

/-! ## Lemmas: the expected index table -/

theorem expectedIndex_length (w : Nat) (term : List Char) :
    ∀ (rs : List FastaRecord) (base : Nat),
      (expectedIndex w term base rs).length = rs.length := by
  intro rs
  induction rs with
  | nil => intro base; rfl
  | cons r rest ih =>
    intro base
    simp only [expectedIndex, List.length_cons, ih]

theorem expectedIndex_get (w : Nat) (term : List Char) :
    ∀ (rs : List FastaRecord) (base i : Nat) (hi : i < rs.length),
      (expectedIndex w term base rs)[i]? =
        some ⟨rs[i].name, (rs[i].seq.length : Int),
          ((base + (encodeFasta w term (rs.take i)).length +
            (1 + rs[i].name.length + term.length) : Nat) : Int),
          (w : Int), ((w + term.length : Nat) : Int)⟩ := by
  intro rs
  induction rs with
  | nil => intro base i hi; simp at hi
  | cons r rest ih =>
    intro base i hi
    cases i with
    | zero =>
      simp only [expectedIndex, List.getElem?_cons_zero, List.getElem_cons_zero,
        List.take_zero, encodeFasta, List.length_nil, Nat.add_zero]
    | succ n =>
      have hn : n < rest.length := by simpa [List.length_cons] using hi
      simp only [expectedIndex, List.getElem?_cons_succ, List.getElem_cons_succ]
      rw [ih (base + (encodeRecord w term r).length) n hn]
      congr 2
      simp only [List.take_succ_cons, encodeFasta_cons, List.length_append]
      omega

theorem encodeFasta_decompose (w : Nat) (term : List Char)
    (rs : List FastaRecord) (i : Nat) (hi : i < rs.length) :
    encodeFasta w term rs = encodeFasta w term (rs.take i) ++
      (encodeRecord w term rs[i] ++ encodeFasta w term (rs.drop (i + 1))) := by
  conv_lhs => rw [← List.take_append_drop i rs]
  rw [encodeFasta_append, List.drop_eq_getElem_cons hi, encodeFasta_cons]

/-- The byte of the encoded file addressed by the seek formula is exactly
the requested sequence character. -/
theorem encode_getByte (w : Nat) (term : List Char) (hw : 0 < w)
    (rs : List FastaRecord) (i p : Nat) (hi : i < rs.length)
    (hp : p < rs[i].seq.length) :
    (encodeFasta w term rs)[(encodeFasta w term (rs.take i)).length +
      (1 + rs[i].name.length + term.length) +
      ((p / w) * (w + term.length) + p % w)]? = some (rs[i].seq[p]) := by
  rw [encodeFasta_decompose w term rs i hi]
  rw [List.getElem?_append_right (by omega)]
  rw [show (encodeFasta w term (rs.take i)).length +
      (1 + rs[i].name.length + term.length) +
      (p / w * (w + term.length) + p % w) -
      (encodeFasta w term (rs.take i)).length =
      (1 + rs[i].name.length + term.length) +
      (p / w * (w + term.length) + p % w) by omega]
  have hsplit : encodeRecord w term rs[i] ++ encodeFasta w term (rs.drop (i + 1)) =
      (('>' :: rs[i].name) ++ term) ++
        (wrapBody w term rs[i].seq ++ encodeFasta w term (rs.drop (i + 1))) := by
    simp [encodeRecord, List.append_assoc]
  rw [hsplit]
  have hhlen : (('>' :: rs[i].name) ++ term).length =
      1 + rs[i].name.length + term.length := by
    simp [List.length_append, List.length_cons]; omega
  rw [List.getElem?_append_right (by rw [hhlen]; omega), hhlen]
  rw [show 1 + rs[i].name.length + term.length +
      (p / w * (w + term.length) + p % w) -
      (1 + rs[i].name.length + term.length) =
      p / w * (w + term.length) + p % w by omega]
  have hwg := wrap_get w term hw rs[i].seq p hp
  have hsome : rs[i].seq[p]? = some (rs[i].seq[p]) := List.getElem?_eq_getElem hp
  rw [hsome] at hwg
  obtain ⟨hlt, -⟩ := List.getElem?_eq_some.mp hwg
  rw [List.getElem?_append_left hlt, hwg]

/-! ## Lemmas: `GetBase` on both access paths -/

/-- The session produced by a successful `CreateIndex` over an encoded
well-formed file. -/
def indexedSession (w : Nat) (term : List Char) (rs : List FastaRecord) :
    FastaSession :=
  (createIndex (openNoIndex (encodeFasta w term rs)) false).2

theorem indexedSession_eq (w : Nat) (term : List Char)
    (rs : List FastaRecord) (hwf : WellFormed w term rs) :
    indexedSession w term rs =
      { file := ⟨encodeFasta w term rs, 0, false⟩
        isOpen := true
        hasIndex := true
        isIndexOpen := false
        index := expectedIndex w term 0 rs } := by
  unfold indexedSession
  rw [createIndex_encode w term rs hwf false]
  rfl

/-- Indexed `GetBase` with an in-range id, an accepted position, and an
entry whose fields are (casts of) natural numbers with a positive line
length: the validations pass and the byte at the translated address is
returned. -/
theorem getBase_indexed_nat (s : FastaSession) (hopen : s.isOpen = true)
    (hhas : s.hasIndex = true) (hne : s.index.isEmpty = false)
    (i p : Nat) (hi : i < s.index.length)
    (nm : List Char) (ln off ll bl : Nat)
    (hentry : s.index[i]? = some ⟨nm, (ln : Int), (off : Int), (ll : Int), (bl : Int)⟩)
    (hll : 0 < ll) (hp : p ≤ ln) :
    getBase s (i : Int) (p : Int) =
      .ok (readByteAt s.file (off + (p / ll) * bl + p % ll)) := by
  have hcond1 : (decide ((i : Int) < 0) ||
      decide ((s.index.length : Int) ≤ (i : Int))) = false := by
    simp only [Bool.or_eq_false_iff, decide_eq_false_iff_not]
    constructor <;> omega
  have hcond2 : (decide ((p : Int) < 0) ||
      decide (((ln : Nat) : Int) < (p : Int))) = false := by
    simp only [Bool.or_eq_false_iff, decide_eq_false_iff_not]
    constructor <;> omega
  have h3 : ¬(((ll : Nat) : Int) = 0) := by omega
  have h4 : ((p : Int)).tdiv ((ll : Nat) : Int) = ((p / ll : Nat) : Int) := rfl
  have h5 : ((p : Int)).tmod ((ll : Nat) : Int) = ((p % ll : Nat) : Int) := rfl
  have h6 : ((off : Nat) : Int) + ((p / ll : Nat) : Int) * ((bl : Nat) : Int) +
      ((p % ll : Nat) : Int) = ((off + (p / ll) * bl + p % ll : Nat) : Int) := by
    push_cast; ring
  have h7 : ¬(((off + (p / ll) * bl + p % ll : Nat) : Int) < 0) := by omega
  unfold getBase
  simp only [hopen, hhas, hne, Bool.not_true, Bool.not_false, Bool.true_and,
    Bool.false_eq_true, if_false, if_true, hcond1, hcond2, Int.toNat_natCast,
    hentry, h4, h5, h6, h7, eq_self_iff_true, ite_true, ite_false, h3]

/-- Indexed `GetBase` on an encoded well-formed file returns the requested
sequence character. -/
theorem getBase_indexed_encode (w : Nat) (term : List Char)
    (rs : List FastaRecord) (hwf : WellFormed w term rs)
    (i p : Nat) (hi : i < rs.length) (hp : p < rs[i].seq.length) :
    getBase (indexedSession w term rs) (i : Int) (p : Int) =
      .ok (rs[i].seq[p]) := by
  have hw : 0 < w := hwf.1
  rw [indexedSession_eq w term rs hwf]
  have hlen := expectedIndex_length w term rs 0
  have hnonempty : (expectedIndex w term 0 rs).isEmpty = false := by
    have hnn : expectedIndex w term 0 rs ≠ [] := by
      intro h
      rw [h] at hlen
      simp at hlen
      omega
    exact Bool.eq_false_iff.mpr (fun h => hnn (List.isEmpty_iff.mp h))
  have hentry := expectedIndex_get w term rs 0 i hi
  simp only [Nat.zero_add] at hentry
  rw [getBase_indexed_nat _ rfl rfl hnonempty i p
    (by
      show i < (expectedIndex w term 0 rs).length
      omega)
    rs[i].name rs[i].seq.length
    ((encodeFasta w term (rs.take i)).length + (1 + rs[i].name.length + term.length))
    w (w + term.length) (by exact_mod_cast hentry) hw (Nat.le_of_lt hp)]
  unfold readByteAt
  simp only
  rw [show (encodeFasta w term (rs.take i)).length +
      (1 + rs[i].name.length + term.length) +
      p / w * (w + term.length) + p % w =
      (encodeFasta w term (rs.take i)).length +
      (1 + rs[i].name.length + term.length) +
      (p / w * (w + term.length) + p % w) by omega]
  rw [encode_getByte w term hw rs i p hi hp]

/-- The encoded file dropped at an entry's `Offset` starts exactly at the
record's wrapped body. -/
theorem encode_drop_offset (w : Nat) (term : List Char)
    (rs : List FastaRecord) (i : Nat) (hi : i < rs.length) :
    (encodeFasta w term rs).drop
        ((encodeFasta w term (rs.take i)).length +
          (1 + rs[i].name.length + term.length)) =
      wrapBody w term rs[i].seq ++ encodeFasta w term (rs.drop (i + 1)) := by
  rw [encodeFasta_decompose w term rs i hi]
  have hsplit : encodeFasta w term (rs.take i) ++
      (encodeRecord w term rs[i] ++ encodeFasta w term (rs.drop (i + 1))) =
      (encodeFasta w term (rs.take i) ++ (('>' :: rs[i].name) ++ term)) ++
        (wrapBody w term rs[i].seq ++ encodeFasta w term (rs.drop (i + 1))) := by
    simp [encodeRecord, List.append_assoc]
  rw [hsplit]
  have hlen : (encodeFasta w term (rs.take i) ++ (('>' :: rs[i].name) ++ term)).length =
      (encodeFasta w term (rs.take i)).length +
        (1 + rs[i].name.length + term.length) := by
    simp [List.length_append, List.length_cons]; omega
  rw [← hlen, List.drop_left]

/-- Indexed `GetSequence` on an encoded well-formed file returns exactly
the requested inclusive slice of the de-wrapped sequence. -/
theorem getSequence_indexed_encode (w : Nat) (term : List Char)
    (rs : List FastaRecord) (hwf : WellFormed w term rs)
    (i a b : Nat) (hi : i < rs.length) (hab : a ≤ b)
    (hb : b < rs[i].seq.length) :
    getSequence (indexedSession w term rs) (i : Int) (a : Int) (b : Int) =
      .ok ((rs[i].seq.drop a).take (b - a + 1)) := by
  obtain ⟨hw, hterm, hne, hnames, hseqs, hfirst⟩ := hwf
  rw [indexedSession_eq w term rs ⟨hw, hterm, hne, hnames, hseqs, hfirst⟩]
  have hlen := expectedIndex_length w term rs 0
  have hnonempty : (expectedIndex w term 0 rs).isEmpty = false := by
    have hnn : expectedIndex w term 0 rs ≠ [] := by
      intro h
      rw [h] at hlen
      simp at hlen
      omega
    exact Bool.eq_false_iff.mpr (fun h => hnn (List.isEmpty_iff.mp h))
  have hentry := expectedIndex_get w term rs 0 i hi
  simp only [Nat.zero_add] at hentry
  have hcond1 : (decide ((i : Int) < 0) ||
      decide (((expectedIndex w term 0 rs).length : Int) ≤ (i : Int))) = false := by
    simp only [Bool.or_eq_false_iff, decide_eq_false_iff_not]
    constructor <;> omega
  have hcond2 : (decide ((a : Int) < 0) || decide ((b : Int) < (a : Int)) ||
      decide (((rs[i].seq.length : Nat) : Int) < (b : Int))) = false := by
    simp only [Bool.or_eq_false_iff, decide_eq_false_iff_not]
    refine ⟨⟨by omega, by omega⟩, by omega⟩
  set off : Nat := (encodeFasta w term (rs.take i)).length +
    (1 + rs[i].name.length + term.length) with hoffdef
  have hcond3 : ¬(((off : Nat) : Int) < 0) := by omega
  have htoNat : ((off : Nat) : Int).toNat = off := Int.toNat_natCast off
  have hdrop := encode_drop_offset w term rs i hi
  rw [← hoffdef] at hdrop
  have hstop : ((b : Int) + 1).toNat = b + 1 := by omega
  unfold getSequence
  simp only [Bool.not_true, Bool.false_eq_true, if_false, Bool.true_and,
    Bool.not_false, if_true, hnonempty, hcond1, hcond2, Int.toNat_natCast,
    hentry, hcond3, htoNat, hstop, ite_false, ite_true]
  rw [hdrop]
  unfold seqStep
  simp only [Bool.false_eq_true, if_false]
  obtain ⟨k, hk1, hk2⟩ := seqLoop_wrap_pre w term hw hterm
    ((wrapBody w term rs[i].seq ++ encodeFasta w term (rs.drop (i + 1))).length + 1)
    (b + 1) rs[i].seq []
    (encodeFasta w term (rs.drop (i + 1)))
    (hseqs rs[i] (List.getElem_mem hi))
    (encodeFasta_shape w term (rs.drop (i + 1)))
    (by simp [List.length_append])
  simp only [List.nil_append] at hk1
  have hkb : b + 1 ≤ k ∨ rs[i].seq.take k = rs[i].seq := by
    rcases hk2 with h | h
    · exact Or.inr h
    · simp only [List.length_nil, Nat.zero_add] at h
      exact Or.inl h
  have htext_len : ¬((seqLoopF (b + 1)
      ((wrapBody w term rs[i].seq ++ encodeFasta w term (rs.drop (i + 1))).length + 1)
      [] (wrapBody w term rs[i].seq ++ encodeFasta w term (rs.drop (i + 1)))
      false).1.length < a) := by
    rw [hk1]
    rcases hkb with h | h
    · simp only [List.length_take]
      push_neg
      omega
    · rw [h]
      omega
  rw [hk1] at htext_len ⊢
  simp only [Bool.not_true, Bool.false_eq_true, if_false, ite_true, ite_false]
  rw [if_neg htext_len]
  rw [show ((b : Int) - (a : Int) + 1).toNat = b - a + 1 by omega]
  congr 1
  rcases hkb with h | h
  · rw [List.drop_take, List.take_take]
    congr 1
    omega
  · rw [h]

/-- Every entry of the expected index of a well-formed file has a
nonempty, whitespace-free name. -/
theorem expectedIndex_good (w : Nat) (term : List Char) :
    ∀ (rs : List FastaRecord) (base : Nat),
      (∀ r ∈ rs, r.name ≠ [] ∧ ∀ c ∈ r.name, isGraphChar c = true) →
      ∀ d ∈ expectedIndex w term base rs, GoodEntry d := by
  intro rs
  induction rs with
  | nil => intro base _ d hd; simp [expectedIndex] at hd
  | cons r rest ih =>
    intro base hnames d hd
    simp only [expectedIndex, List.mem_cons] at hd
    rcases hd with h | h
    · subst h
      have hr := hnames r (List.mem_cons_self r rest)
      exact ⟨hr.1, fun c hc => isGraphChar_not_streamWs (hr.2 c hc)⟩
    · exact ih (base + (encodeRecord w term r).length)
        (fun a ha => hnames a (List.mem_cons_of_mem r ha)) d h

/-- Sequential (non-indexed) `GetBase` on an encoded well-formed file
returns the same character. -/
theorem getBase_sequential_fallback (w : Nat) (term : List Char)
    (rs : List FastaRecord) (hwf : WellFormed w term rs)
    (i p : Nat) (hi : i < rs.length) (hp : p < rs[i].seq.length) :
    getBase (openNoIndex (encodeFasta w term rs)) (i : Int) (p : Int) =
      .ok (rs[i].seq[p]) := by
  obtain ⟨hw, hterm, hne, hnames, hseqs, hfirst⟩ := hwf
  unfold getBase openNoIndex
  simp only [Bool.not_true, Bool.false_eq_true, if_false, Bool.false_and,
    if_true]
  rw [if_neg (by simp)]
  rw [show ((i : Int)).toNat = i from Int.toNat_natCast i]
  rw [if_neg (by simp)]
  have hscan := scanToRecord_encode w term hw hterm i rs ⟨hnames, hseqs⟩ hi
  rw [hscan]
  rw [show ((p : Int)).toNat = p from Int.toNat_natCast p]
  rw [if_pos (Nat.le_of_lt hp)]
  rw [List.getElem?_eq_getElem hp]

/-! ## Claims

Error-kind correspondence used below (from the specification's taxonomy to
the `cerr` sites of the code): `OutOfRangeError` = `FErr.badRefId` /
`FErr.badPosition` / `FErr.badRange`, `NotIndexedError` = `FErr.notIndexed`,
`NotFoundError` = `FErr.notFound`, `IoError` = `FErr.seekFail` /
`FErr.ioRead` / `FErr.notOpen`. -/

/-- A two-record test file: `a` with sequence `ACGT`, `b` with `GGA`,
wrapped at 2 characters per line, Unix terminators. -/
def sampleRecords : List FastaRecord :=
  [⟨['a'], ['A', 'C', 'G', 'T']⟩, ⟨['b'], ['G', 'G', 'A']⟩]

/-- C1 counterexample: on the well-formed single-record file
`">a\nAC\nGT\n"`, `CreateIndex("")` (empty index path) fully builds the
in-memory table but returns failure, contradicting the claimed success. -/
theorem C1_counterexample :
    (createIndex (openNoIndex ((">a\nAC\nGT\n").toList)) true).1 =
      .err .indexWrite ∧
    (createIndex (openNoIndex ((">a\nAC\nGT\n").toList)) true).2.index =
      [⟨['a'], 4, 3, 2, 3⟩] ∧
    (createIndex (openNoIndex ((">a\nAC\nGT\n").toList)) true).2.hasIndex =
      false := by
  refine ⟨?_, ?_, ?_⟩ <;> decide

/-- C1 (amended): for every session over a well-formed data file,
`CreateIndex` with an empty index path builds the in-memory Index Table
(one entry per record, in file order) but returns failure — when no index
filename is given `WriteIndexData` has no open writable index stream —
and leaves `HasIndex` unset; nothing is persisted. -/
theorem C1_createIndex_emptyPath (w : Nat) (term : List Char)
    (rs : List FastaRecord) (hwf : WellFormed w term rs) :
    (createIndex (openNoIndex (encodeFasta w term rs)) true).1 =
      .err .indexWrite ∧
    (createIndex (openNoIndex (encodeFasta w term rs)) true).2.index =
      expectedIndex w term 0 rs ∧
    (createIndex (openNoIndex (encodeFasta w term rs)) true).2.index.length =
      rs.length ∧
    (createIndex (openNoIndex (encodeFasta w term rs)) true).2.hasIndex =
      false := by
  rw [createIndex_encode w term rs hwf true]
  refine ⟨rfl, rfl, ?_, rfl⟩
  exact expectedIndex_length w term rs 0

/-- C1 witness: the amended statement at the two-record sample file. -/
theorem C1_witness :
    (createIndex (openNoIndex (encodeFasta 2 ['\n'] sampleRecords)) true).1 =
      .err .indexWrite ∧
    (createIndex (openNoIndex (encodeFasta 2 ['\n'] sampleRecords)) true).2.index =
      expectedIndex 2 ['\n'] 0 sampleRecords ∧
    (createIndex (openNoIndex (encodeFasta 2 ['\n'] sampleRecords)) true).2.index.length =
      sampleRecords.length ∧
    (createIndex (openNoIndex (encodeFasta 2 ['\n'] sampleRecords)) true).2.hasIndex =
      false :=
  C1_createIndex_emptyPath 2 ['\n'] sampleRecords (by decide)

/-- C2 counterexample: on an open session holding a one-entry index,
`GetLength` with the out-of-range ids 1 and -1 does not return an
`OutOfRangeError` result — `Index.at(refId)` throws `std::out_of_range`
uncaught, aborting the process. -/
theorem C2_counterexample :
    getLength ⟨⟨(">a\nAC\nGT\n").toList, 0, false⟩, true, true, false,
      [⟨['a'], 4, 3, 2, 3⟩]⟩ 1 = .abortUB ∧
    getLength ⟨⟨(">a\nAC\nGT\n").toList, 0, false⟩, true, true, false,
      [⟨['a'], 4, 3, 2, 3⟩]⟩ (-1) = .abortUB := by
  exact ⟨by decide, by decide⟩

/-- C2 (amended): on an open session, `GetLength` fails with
`NotIndexedError` when there is no index at all (`!HasIndex` and an empty
table); otherwise it performs **no range check**: for an in-range
`record_id` it returns `entry.Length`, and for any out-of-range
`record_id` it throws `std::out_of_range` (aborts) instead of returning an
error result. -/
theorem C2_getLength_noRangeCheck (s : FastaSession) (refId : Int)
    (hopen : s.isOpen = true) :
    (s.hasIndex = false ∧ s.index = [] →
      getLength s refId = .err .notIndexed) ∧
    (s.hasIndex = true ∨ s.index ≠ [] →
      (∀ d, 0 ≤ refId → s.index[refId.toNat]? = some d →
        getLength s refId = .ok d.Length) ∧
      (refId < 0 ∨ (s.index.length : Int) ≤ refId →
        getLength s refId = .abortUB)) := by
  constructor
  · intro h
    unfold getLength
    rw [hopen, h.1, h.2]
    rfl
  · intro hidx
    have hcond : (!s.hasIndex && s.index.isEmpty) = false := by
      rcases hidx with h | h
      · simp [h]
      · simp [List.isEmpty_iff, h]
    constructor
    · intro d h0 hd
      unfold getLength
      rw [hopen, hcond]
      simp only [Bool.not_true, Bool.false_eq_true, if_false, if_true]
      rw [if_neg (by omega), hd]
    · intro hout
      unfold getLength
      rw [hopen, hcond]
      simp only [Bool.not_true, Bool.false_eq_true, if_false, if_true]
      rcases hout with h | h
      · rw [if_pos h]
      · rw [if_neg (by omega)]
        have hnone : s.index[refId.toNat]? = none := by
          apply List.getElem?_eq_none
          omega
        rw [hnone]

/-- C2 witness: the amended statement exercised on a concrete one-entry
session, both the in-range success and the out-of-range abort. -/
theorem C2_witness :
    getLength ⟨⟨(">a\nAC\nGT\n").toList, 0, false⟩, true, true, false,
      [⟨['a'], 4, 3, 2, 3⟩]⟩ 0 = .ok 4 ∧
    getLength ⟨⟨(">a\nAC\nGT\n").toList, 0, false⟩, true, true, false,
      [⟨['a'], 4, 3, 2, 3⟩]⟩ 2 = .abortUB := by
  constructor
  · exact ((C2_getLength_noRangeCheck _ 0 rfl).2 (Or.inl rfl)).1
      ⟨['a'], 4, 3, 2, 3⟩ (by decide) (by decide)
  · exact ((C2_getLength_noRangeCheck _ 2 rfl).2 (Or.inl rfl)).2
      (Or.inr (by decide))

/-- C3: for every valid `record_id` and every position
`0 ≤ position < length`, `GetBase` on an indexed session (index built by
`CreateIndex` over the file) and `GetBase` on a non-indexed session over
the same data file return the same character: the character at that
zero-based offset of the record's de-wrapped sequence. -/
theorem C3_getBase_paths_agree (w : Nat) (term : List Char)
    (rs : List FastaRecord) (hwf : WellFormed w term rs)
    (i p : Nat) (hi : i < rs.length) (hp : p < rs[i].seq.length) :
    getBase (indexedSession w term rs) (i : Int) (p : Int) =
      .ok (rs[i].seq[p]) ∧
    getBase (openNoIndex (encodeFasta w term rs)) (i : Int) (p : Int) =
      .ok (rs[i].seq[p]) :=
  ⟨getBase_indexed_encode w term rs hwf i p hi hp,
   getBase_sequential_fallback w term rs hwf i p hi hp⟩

/-- C3 witness: both paths return `'G'` for record 1, position 1 of the
sample file. -/
theorem C3_witness :
    getBase (indexedSession 2 ['\n'] sampleRecords) 1 1 = .ok 'G' ∧
    getBase (openNoIndex (encodeFasta 2 ['\n'] sampleRecords)) 1 1 = .ok 'G' :=
  C3_getBase_paths_agree 2 ['\n'] sampleRecords (by decide) 1 1
    (by decide) (by decide)

/-- C4: persisting the Index Table built by a successful `CreateIndex`
over a well-formed data file and parsing the persisted side-table back
yields a field-by-field identical table, in the same order. -/
theorem C4_index_roundtrip (w : Nat) (term : List Char)
    (rs : List FastaRecord) (hwf : WellFormed w term rs) :
    loadIndexData (writeIndexData
        ((createIndex (openNoIndex (encodeFasta w term rs)) false).2.index)) =
      (createIndex (openNoIndex (encodeFasta w term rs)) false).2.index := by
  have htbl : (createIndex (openNoIndex (encodeFasta w term rs)) false).2.index =
      expectedIndex w term 0 rs := by
    rw [createIndex_encode w term rs hwf false]
  rw [htbl]
  exact loadIndexData_writeIndexData (expectedIndex w term 0 rs)
    (expectedIndex_good w term rs 0 ((hwf.2).2.2.1))

/-- C4 witness: the round-trip at the two-record sample file. -/
theorem C4_witness :
    loadIndexData (writeIndexData
        ((createIndex (openNoIndex (encodeFasta 2 ['\n'] sampleRecords))
          false).2.index)) =
      (createIndex (openNoIndex (encodeFasta 2 ['\n'] sampleRecords))
        false).2.index :=
  C4_index_roundtrip 2 ['\n'] sampleRecords (by decide)

/-- C5: for every valid `record_id` and all `0 ≤ start ≤ stop < length`,
`GetSequence` on an indexed session succeeds and returns exactly
`stop - start + 1` characters: the inclusive slice `[start, stop]` of the
record's de-wrapped sequence. -/
theorem C5_getSequence_slice (w : Nat) (term : List Char)
    (rs : List FastaRecord) (hwf : WellFormed w term rs)
    (i a b : Nat) (hi : i < rs.length) (hab : a ≤ b)
    (hb : b < rs[i].seq.length) :
    getSequence (indexedSession w term rs) (i : Int) (a : Int) (b : Int) =
      .ok ((rs[i].seq.drop a).take (b - a + 1)) ∧
    ((rs[i].seq.drop a).take (b - a + 1)).length = b - a + 1 := by
  refine ⟨getSequence_indexed_encode w term rs hwf i a b hi hab hb, ?_⟩
  simp only [List.length_take, List.length_drop]
  omega

/-- C5 witness: records 0's slice `[1, 3]` of the sample file is `CGT`. -/
theorem C5_witness :
    getSequence (indexedSession 2 ['\n'] sampleRecords) 0 1 3 =
      .ok ['C', 'G', 'T'] ∧
    (['C', 'G', 'T'] : List Char).length = 3 :=
  C5_getSequence_slice 2 ['\n'] sampleRecords (by decide) 0 1 3
    (by decide) (by decide) (by decide)

/-- The position-validation/seek/read tail of the indexed `GetBase` path,
for one retrieved entry (the code after `Index.at(refId)` succeeds). -/
def getBaseEntry (f : CFile) (rd : FastaIndexData) (position : Int) :
    FRes Char :=
  if position < 0 || rd.Length < position then .err .badPosition
  else if rd.LineLength = 0 then .abortUB
  else
    let lines := position.tdiv rd.LineLength
    let lineOffset := position.tmod rd.LineLength
    let seekTo := rd.Offset + lines * rd.ByteLength + lineOffset
    if seekTo < 0 then .err .seekFail
    else .ok (readByteAt f seekTo.toNat)

/-- On an open indexed session with a valid `refId`, `GetBase` runs the
entry tail on the retrieved entry. -/
theorem getBase_entry_bridge (s : FastaSession) (refId pos : Int)
    (hopen : s.isOpen = true) (hhas : s.hasIndex = true)
    (hne : s.index ≠ []) (h0 : 0 ≤ refId)
    (hr : refId < (s.index.length : Int))
    (rd : FastaIndexData) (hentry : s.index[refId.toNat]? = some rd) :
    getBase s refId pos = getBaseEntry s.file rd pos := by
  have hisEmpty : s.index.isEmpty = false := by
    simp [List.isEmpty_iff, hne]
  have hcond1 : (decide (refId < 0) ||
      decide ((s.index.length : Int) ≤ refId)) = false := by
    simp only [Bool.or_eq_false_iff, decide_eq_false_iff_not]
    constructor <;> omega
  unfold getBase getBaseEntry
  simp only [hopen, hhas, hisEmpty, Bool.not_true, Bool.not_false,
    Bool.true_and, Bool.false_eq_true, if_false, if_true, hcond1, hentry]

/-- C6: on an indexed session with a valid `record_id`, `GetBase` accepts
exactly the positions `0 ≤ position ≤ entry.Length` (including the
boundary `position == length`, one past the last character): the
`OutOfRangeError` result is returned precisely when `position < 0` or
`position > entry.Length`. -/
theorem C6_getBase_position_boundary (s : FastaSession) (refId pos : Int)
    (hopen : s.isOpen = true) (hhas : s.hasIndex = true)
    (hne : s.index ≠ []) (h0 : 0 ≤ refId)
    (hr : refId < (s.index.length : Int))
    (rd : FastaIndexData) (hentry : s.index[refId.toNat]? = some rd) :
    getBase s refId pos = .err .badPosition ↔
      (pos < 0 ∨ rd.Length < pos) := by
  rw [getBase_entry_bridge s refId pos hopen hhas hne h0 hr rd hentry]
  unfold getBaseEntry
  by_cases hc : pos < 0 ∨ rd.Length < pos
  · rw [if_pos (by simpa using hc)]
    simp [hc]
  · rw [if_neg (by simpa using hc)]
    simp only [hc, iff_false]
    by_cases hll : rd.LineLength = 0
    · rw [if_pos hll]
      simp
    · rw [if_neg hll]
      by_cases hseek : rd.Offset + pos.tdiv rd.LineLength * rd.ByteLength +
          pos.tmod rd.LineLength < 0
      · rw [if_pos hseek]
        simp
      · rw [if_neg hseek]
        simp

/-- C6 witness: at the boundary `position == Length = 4` the call is
accepted (returns a read byte, not `OutOfRangeError`), while `position =
5` and `position = -1` are rejected. -/
theorem C6_witness :
    (¬(getBase ⟨⟨(">a\nAC\nGT\n").toList, 0, false⟩, true, true, false,
        [⟨['a'], 4, 3, 2, 3⟩]⟩ 0 4 = .err .badPosition)) ∧
    getBase ⟨⟨(">a\nAC\nGT\n").toList, 0, false⟩, true, true, false,
      [⟨['a'], 4, 3, 2, 3⟩]⟩ 0 5 = .err .badPosition ∧
    getBase ⟨⟨(">a\nAC\nGT\n").toList, 0, false⟩, true, true, false,
      [⟨['a'], 4, 3, 2, 3⟩]⟩ 0 (-1) = .err .badPosition := by
  refine ⟨?_, ?_, ?_⟩
  · intro h
    have := (C6_getBase_position_boundary _ 0 4 rfl rfl (by decide)
      (by decide) (by decide) ⟨['a'], 4, 3, 2, 3⟩ (by decide)).mp h
    rcases this with h' | h' <;> revert h' <;> decide
  · exact (C6_getBase_position_boundary _ 0 5 rfl rfl (by decide)
      (by decide) (by decide) ⟨['a'], 4, 3, 2, 3⟩ (by decide)).mpr
      (Or.inr (by decide))
  · exact (C6_getBase_position_boundary _ 0 (-1) rfl rfl (by decide)
      (by decide) (by decide) ⟨['a'], 4, 3, 2, 3⟩ (by decide)).mpr
      (Or.inl (by decide))

/-- C7: on an indexed session, for a valid `record_id` and an accepted
position (with a nonzero stored line length, see C10), `GetBase` seeks to
exactly `Offset + (position / LineLength) * ByteLength +
(position % LineLength)` and reads exactly the one byte at that offset;
when the seek fails (negative target) it returns an `IoError` result. -/
theorem C7_getBase_seek_formula (s : FastaSession) (refId pos : Int)
    (hopen : s.isOpen = true) (hhas : s.hasIndex = true)
    (hne : s.index ≠ []) (h0 : 0 ≤ refId)
    (hr : refId < (s.index.length : Int))
    (rd : FastaIndexData) (hentry : s.index[refId.toNat]? = some rd)
    (hp0 : 0 ≤ pos) (hpl : pos ≤ rd.Length) (hll : rd.LineLength ≠ 0) :
    (rd.Offset + pos.tdiv rd.LineLength * rd.ByteLength +
        pos.tmod rd.LineLength < 0 →
      getBase s refId pos = .err .seekFail) ∧
    (0 ≤ rd.Offset + pos.tdiv rd.LineLength * rd.ByteLength +
        pos.tmod rd.LineLength →
      getBase s refId pos = .ok (readByteAt s.file
        (rd.Offset + pos.tdiv rd.LineLength * rd.ByteLength +
          pos.tmod rd.LineLength).toNat)) := by
  rw [getBase_entry_bridge s refId pos hopen hhas hne h0 hr rd hentry]
  unfold getBaseEntry
  rw [if_neg (by
    simp only [Bool.or_eq_true, decide_eq_true_eq, not_or]
    omega)]
  rw [if_neg hll]
  constructor
  · intro hseek
    rw [if_pos hseek]
  · intro hseek
    rw [if_neg (by omega)]

/-- C7 witness: record 0, position 3 of the sample file seeks to
`3 + (3 / 2) * 3 + (3 % 2) = 7` and reads the byte there (`'T'`). -/
theorem C7_witness :
    getBase ⟨⟨(">a\nAC\nGT\n").toList, 0, false⟩, true, true, false,
      [⟨['a'], 4, 3, 2, 3⟩]⟩ 0 3 =
      .ok (readByteAt ⟨(">a\nAC\nGT\n").toList, 0, false⟩ 7) := by
  have h := (C7_getBase_seek_formula
    ⟨⟨(">a\nAC\nGT\n").toList, 0, false⟩, true, true, false,
      [⟨['a'], 4, 3, 2, 3⟩]⟩ 0 3 rfl rfl (by decide) (by decide)
    (by decide) ⟨['a'], 4, 3, 2, 3⟩ (by decide) (by decide) (by decide)
    (by decide)).2 (by decide)
  exact h

/-- Reduction of the sequential (non-indexed) `GetBase` path. -/
theorem getBase_seq_bridge (data : List Char) (i : Nat) (p : Int) :
    getBase (openNoIndex data) (i : Int) p =
      (if p < 0 then .err .notFound
       else if p.toNat ≤ (scanToRecord i data false).text.length then
         match (scanToRecord i data false).text[p.toNat]? with
         | some c => .ok c
         | none => .abortUB
       else .err .notFound) := by
  unfold getBase openNoIndex
  simp only [Bool.not_true, Bool.false_eq_true, if_false, Bool.false_and,
    if_true]
  rw [if_neg (by simp), Int.toNat_natCast]

/-- Reduction of the sequential (non-indexed) `GetSequence` path. -/
theorem getSequence_seq_bridge (data : List Char) (i : Nat)
    (start stop : Int) :
    getSequence (openNoIndex data) (i : Int) start stop =
      (if stop < 0 then .err .notFound
       else if stop.toNat ≤ (scanToRecord i data false).text.length then
         if start < 0 then .abortUB
         else if (scanToRecord i data false).text.length < start.toNat then
           .abortUB
         else
           .ok (((scanToRecord i data false).text.drop start.toNat).take
             (if (stop - start) + 1 < 0 then
               (scanToRecord i data false).text.length
              else ((stop - start) + 1).toNat))
       else .err .notFound) := by
  unfold getSequence openNoIndex
  simp only [Bool.not_true, Bool.false_eq_true, if_false, Bool.false_and,
    if_true]
  rw [if_neg (by simp), Int.toNat_natCast]

/-- C8 counterexample: on a non-indexed session over the well-formed file
`">a\nAC\nGT\n"` (record 0 has length 4), `GetBase(0, 4)` — position not
strictly less than the retrieved length — does not return an error result:
`sequence.at(4)` throws `std::out_of_range` (aborts).  And
`GetSequence(0, 1, 4)` with `stop` equal to the length returns success
with a truncated string instead of an error. -/
theorem C8_counterexample :
    getBase (openNoIndex ((">a\nAC\nGT\n").toList)) 0 4 = .abortUB ∧
    getSequence (openNoIndex ((">a\nAC\nGT\n").toList)) 0 1 4 =
      .ok ['C', 'G', 'T'] := by
  exact ⟨by decide, by decide⟩

/-- C8 (amended): on a non-indexed session over a well-formed data file,
with `len` the length of the sequence retrieved for the target record:
`GetBase` returns `NotFoundError` exactly for `position > len` or
`position < 0`, while at the boundary `position = len` it throws
`std::out_of_range` (aborts); `GetSequence` returns `NotFoundError` for
`stop > len` or `stop < 0`, while at `stop = len` (with a valid `start`)
it **succeeds**, returning the truncated suffix slice `[start, len)`. -/
theorem C8_sequential_boundary (w : Nat) (term : List Char)
    (rs : List FastaRecord) (hwf : WellFormed w term rs)
    (i : Nat) (hi : i < rs.length) (p start stop : Int) :
    ((rs[i].seq.length : Int) < p →
      getBase (openNoIndex (encodeFasta w term rs)) (i : Int) p =
        .err .notFound) ∧
    (p = (rs[i].seq.length : Int) →
      getBase (openNoIndex (encodeFasta w term rs)) (i : Int) p =
        .abortUB) ∧
    (p < 0 →
      getBase (openNoIndex (encodeFasta w term rs)) (i : Int) p =
        .err .notFound) ∧
    ((rs[i].seq.length : Int) < stop →
      getSequence (openNoIndex (encodeFasta w term rs)) (i : Int) start stop =
        .err .notFound) ∧
    (stop < 0 →
      getSequence (openNoIndex (encodeFasta w term rs)) (i : Int) start stop =
        .err .notFound) ∧
    (stop = (rs[i].seq.length : Int) → 0 ≤ start → start ≤ stop →
      getSequence (openNoIndex (encodeFasta w term rs)) (i : Int) start stop =
        .ok (rs[i].seq.drop start.toNat)) := by
  obtain ⟨hw, hterm, hne, hnames, hseqs, hfirst⟩ := hwf
  have hscan := scanToRecord_encode w term hw hterm i rs ⟨hnames, hseqs⟩ hi
  refine ⟨?_, ?_, ?_, ?_, ?_, ?_⟩
  · intro hp
    rw [getBase_seq_bridge, hscan]
    rw [if_neg (by omega), if_neg (by omega)]
  · intro hp
    rw [getBase_seq_bridge, hscan]
    rw [if_neg (by omega), if_pos (by omega)]
    rw [List.getElem?_eq_none (by omega)]
  · intro hp
    rw [getBase_seq_bridge, hscan]
    rw [if_pos hp]
  · intro hstop
    rw [getSequence_seq_bridge, hscan]
    rw [if_neg (by omega), if_neg (by omega)]
  · intro hstop
    rw [getSequence_seq_bridge, hscan]
    rw [if_pos hstop]
  · intro hstop hstart1 hstart2
    rw [getSequence_seq_bridge, hscan]
    rw [if_neg (by omega), if_pos (by omega), if_neg (by omega),
      if_neg (by omega), if_neg (by omega)]
    congr 1
    apply List.take_of_length_le
    simp only [List.length_drop]
    omega

/-- C8 witness: the amended statement at concrete boundary inputs on the
sample file (record 1, sequence `GGA`, length 3). -/
theorem C8_witness :
    getBase (openNoIndex (encodeFasta 2 ['\n'] sampleRecords)) 1 5 =
      .err .notFound ∧
    getBase (openNoIndex (encodeFasta 2 ['\n'] sampleRecords)) 1 3 =
      .abortUB ∧
    getSequence (openNoIndex (encodeFasta 2 ['\n'] sampleRecords)) 1 1 3 =
      .ok ['G', 'A'] := by
  have h := C8_sequential_boundary 2 ['\n'] sampleRecords (by decide) 1
    (by decide) 5 1 3
  have h' := C8_sequential_boundary 2 ['\n'] sampleRecords (by decide) 1
    (by decide) 3 1 3
  exact ⟨h.1 (by decide), (h'.2.1) (by decide),
    (h.2.2.2.2.2) (by decide) (by decide) (by decide)⟩

/-- C9 counterexample: `CreateIndex` (with an index filename) succeeds on
the degenerate file `">a\n\n>b\nA\n"` whose first sequence line is blank,
yet the entry for record `b` has a non-empty sequence (`Length = 1`) and
`LineLength = 0` — the claimed invariant `line_length > 0` for records
with non-empty sequences fails (the geometry is measured globally from the
first record's first line only). -/
theorem C9_counterexample :
    (createIndex (openNoIndex ((">a\n\n>b\nA\n").toList)) false).1 =
      .ok () ∧
    (createIndex (openNoIndex ((">a\n\n>b\nA\n").toList)) false).2.index =
      [⟨['a'], 0, 3, 0, 1⟩, ⟨['b'], 1, 7, 0, 1⟩] := by
  exact ⟨by decide, by decide⟩

/-- C9 (amended): on a well-formed, uniformly wrapped data file (whose
first record's first sequence line contains at least one visible
character), every entry of a successful `CreateIndex` satisfies
`LineLength ≤ ByteLength` and `0 ≤ Length`, records with non-empty
sequences have `LineLength > 0`, and the `j`-th entry carries the name
and sequence length of the `j`-th record of the data file (file order). -/
theorem C9_index_invariants (w : Nat) (term : List Char)
    (rs : List FastaRecord) (hwf : WellFormed w term rs) (j : Nat)
    (hj : j < rs.length) :
    (createIndex (openNoIndex (encodeFasta w term rs)) false).1 = .ok () ∧
    (createIndex (openNoIndex (encodeFasta w term rs)) false).2.index.length =
      rs.length ∧
    ∃ d, (createIndex (openNoIndex (encodeFasta w term rs)) false).2.index[j]? =
        some d ∧
      d.Name = rs[j].name ∧ d.Length = (rs[j].seq.length : Int) ∧
      d.LineLength ≤ d.ByteLength ∧ 0 ≤ d.Length ∧
      (0 < d.Length → 0 < d.LineLength) := by
  have hw : 0 < w := hwf.1
  rw [createIndex_encode w term rs hwf false]
  refine ⟨rfl, expectedIndex_length w term rs 0, ?_⟩
  refine ⟨_, expectedIndex_get w term rs 0 j hj, rfl, rfl, ?_, ?_, ?_⟩
  · show (w : Int) ≤ ((w + term.length : Nat) : Int)
    exact_mod_cast Nat.le_add_right w term.length
  · positivity
  · intro _
    show (0 : Int) < ((w : Nat) : Int)
    exact_mod_cast hw

/-- C9 witness: the amended statement at the sample file, entry 1. -/
theorem C9_witness :
    (createIndex (openNoIndex (encodeFasta 2 ['\n'] sampleRecords)) false).1 =
      .ok () ∧
    (createIndex (openNoIndex (encodeFasta 2 ['\n'] sampleRecords))
      false).2.index.length = sampleRecords.length ∧
    ∃ d, (createIndex (openNoIndex (encodeFasta 2 ['\n'] sampleRecords))
        false).2.index[1]? = some d ∧
      d.Name = ['b'] ∧ d.Length = (3 : Int) ∧
      d.LineLength ≤ d.ByteLength ∧ 0 ≤ d.Length ∧
      (0 < d.Length → 0 < d.LineLength) := by
  have h := C9_index_invariants 2 ['\n'] sampleRecords (by decide) 1
    (by decide)
  exact h

/-- C10: the indexed `GetBase` divides and takes the remainder by
`entry.LineLength` with no zero check, so on any entry with
`LineLength = 0` the computation is undefined behaviour for every accepted
position; with `LineLength ≠ 0` the call never hits undefined behaviour.
Such entries really arise: `LoadIndexData` parses a persisted line without
validating any numeric field, accepting a zero line length. -/
theorem C10_division_by_zero (s : FastaSession) (refId pos : Int)
    (hopen : s.isOpen = true) (hhas : s.hasIndex = true)
    (hne : s.index ≠ []) (h0 : 0 ≤ refId)
    (hr : refId < (s.index.length : Int))
    (rd : FastaIndexData) (hentry : s.index[refId.toNat]? = some rd)
    (hp0 : 0 ≤ pos) (hpl : pos ≤ rd.Length) :
    (rd.LineLength = 0 → getBase s refId pos = .abortUB) ∧
    (rd.LineLength ≠ 0 → getBase s refId pos ≠ .abortUB) ∧
    loadIndexData (("x\t5\t10\t0\t7\n").toList) = [⟨['x'], 5, 10, 0, 7⟩] := by
  rw [getBase_entry_bridge s refId pos hopen hhas hne h0 hr rd hentry]
  unfold getBaseEntry
  rw [if_neg (by
    simp only [Bool.or_eq_true, decide_eq_true_eq, not_or]
    omega)]
  refine ⟨?_, ?_, by decide⟩
  · intro hll
    rw [if_pos hll]
  · intro hll
    rw [if_neg hll]
    simp only
    by_cases hseek : rd.Offset + pos.tdiv rd.LineLength * rd.ByteLength +
        pos.tmod rd.LineLength < 0
    · rw [if_pos hseek]
      simp
    · rw [if_neg hseek]
      simp

/-- C10 witness: a session opened with that persisted index line holds a
zero-`LineLength` entry, and the indexed `GetBase` on it is undefined
behaviour. -/
theorem C10_witness :
    getBase (openWithIndex ((">a\nAC\nGT\n").toList)
      (("x\t5\t10\t0\t7\n").toList)) 0 1 = .abortUB := by
  exact (C10_division_by_zero _ 0 1 rfl rfl (by decide) (by decide)
    (by decide) ⟨['x'], 5, 10, 0, 7⟩ (by decide) (by decide) (by decide)).1
    (by decide)

end Fasta
